import Mathlib

/-!
# Verification of the hashcalcmt concurrent file-hashing pipeline

This file gives a shallow embedding of the `hashcalcmt` repository: a
command-line tool that walks a directory tree, filters files by a glob
pattern (`path/filepath.Match` semantics), hashes each matching file in a
pool of worker goroutines, and aggregates the results (console display,
output file, optional rename to `<digest><ext>`).

Modelling conventions:
* Go strings are modelled as Lean `String`s viewed as lists of characters
  (`String.data`); Go's byte-wise operations coincide with this view on
  ASCII data, which is all the embedded algorithms inspect.
* File paths are modelled as segment lists (`List String`); `filepath.Join`
  of a clean directory path with an entry name appends one segment.
* File contents are byte lists (`List Nat`, each byte `< 256`).
* The cryptographic digest primitives (`md5.New`, `sha1.New`, … ,
  `xxhash.Sum64`) are external libraries, not part of this repository;
  they enter the model as parameters (pure functions of the content),
  while the repository's adapter code around them is embedded exactly.
* The goroutine/channel pipeline is modelled as a small-step state machine
  (`PipeState`, `step`): one producer draining the deterministic walk-event
  list, `numWorkers` workers, an unbounded FIFO abstraction of each
  channel, and explicit close flags.  Schedules are arbitrary interleavings
  of `Act`ions.
-/

set_option maxRecDepth 4000

namespace Hashcalcmt

/-- A file path, as a list of segments (`filepath.Join dir name` appends
one segment to a clean directory path). -/
abbrev Path := List String

/-- The distinct error values that can reach a `Result` or the error list:
walk/lstat failures, `os.Open` failures, read failures inside the hasher,
`file.Close` failures, `filepath.ErrBadPattern`, and the two rename-stage
failures of `processResults`. -/
inductive GoErr where
  | walkFailure
  | openFailure
  | readFailure
  | closeFailure
  | alreadyExists
  | renameFailure
deriving DecidableEq, Repr

/-- How one file on disk behaves towards the worker that hashes it:
its content, and whether `os.Open`, the streaming read, or `Close` fail. -/
structure FileSpec where
  content : List Nat
  openErr : Bool
  readErr : Bool
  closeErr : Bool
deriving DecidableEq, Repr

/-- `Result` from `pipeline.Run` / `main.go`: a file path, a digest string
(`Hash`), and an optional error.  (Field `FilePath` is the original
discovered path.) -/
structure Result where
  FilePath : Path
  Hash : String
  Error : Option GoErr
deriving DecidableEq, Repr

/-- Lowercase hexadecimal digit characters, as produced by Go's
`encoding/hex` and `fmt`'s `%x` verb. -/
def hexDigit (n : Nat) : Char :=
  if n < 10 then Char.ofNat (48 + n) else Char.ofNat (87 + n)

/-- The hex digits of `n`, most significant first, with no digits for `0`
(helper for `%x`). -/
def hexDigits : Nat → List Char
  | 0 => []
  | n + 1 => hexDigits ((n + 1) / 16) ++ [hexDigit ((n + 1) % 16)]
decreasing_by exact Nat.div_lt_self (Nat.succ_pos n) (by omega)

/-- Go `fmt.Sprintf "%x" v` for an unsigned integer: minimal-width
lowercase hex, `"0"` for zero — no zero-padding to a fixed width. -/
def hexNoPad (n : Nat) : String :=
  if n = 0 then "0" else ⟨hexDigits n⟩

/-- Go `hex.EncodeToString`: every byte becomes exactly two lowercase hex
digits (fixed-width byte-wise encoding). -/
def byteHex (bytes : List Nat) : String :=
  ⟨(bytes.map fun b => [hexDigit (b % 256 / 16), hexDigit (b % 16)]).flatten⟩

/-- `newHashStreamFunc` (hasher.go / main.go): stream the content through a
fresh digest object `prim`, then `hex.EncodeToString` the digest bytes. -/
def newHashStreamFunc (prim : List Nat → List Nat) (content : List Nat) : String :=
  byteHex (prim content)

/-- `hashXXHashStream` (hasher.go / main.go): stream the content through
`xxhash`, then format the finalized 64-bit integer with `fmt.Sprintf "%x"`. -/
def hashXXHashStream (sum64 : List Nat → Nat) (content : List Nat) : String :=
  hexNoPad (sum64 content)

/-- `hashFile` from the `pipeline` package (part_005): open the file, run
the hasher, and propagate a `Close` error only when the hash itself
succeeded (`if err == nil { err = closeErr }` in the deferred close).
Returns the `(hash, err)` pair. -/
def hashFile (hasher : List Nat → String) (f : FileSpec) : String × Option GoErr :=
  if f.openErr then ("", some .openFailure)
  else
    let hr : String × Option GoErr :=
      if f.readErr then ("", some .readFailure) else (hasher f.content, none)
    match hr with
    | (h, some e) => (h, some e)
    | (h, none) => if f.closeErr then (h, some .closeFailure) else (h, none)

/-- `hashFile` from `main.go`: identical except the deferred `file.Close()`
discards the close error. -/
def hashFileMain (hasher : List Nat → String) (f : FileSpec) : String × Option GoErr :=
  if f.openErr then ("", some .openFailure)
  else if f.readErr then ("", some .readFailure)
  else (hasher f.content, none)

/-! ## `path/filepath.Match`

Embedding of Go's glob matcher (`path/filepath/match.go`, go1.23), which
the producer calls as `match, _ := filepath.Match(pattern, info.Name())`,
discarding the `ErrBadPattern` error.  Strings are lists of characters;
`utf8.DecodeRuneInString` on a character list yields the head character
(there is no invalid-UTF-8 case in this view), `Separator` is `'/'`. -/

/-- Result of `Match`: Go returns `(matched, err)`; every error return
site returns `matched = false`, so the two observable outcomes are a
boolean verdict or `ErrBadPattern`. -/
inductive MatchRes where
  | res (matched : Bool)
  | bad
deriving DecidableEq, Repr

/-- Result of `matchChunk`: `(rest, true, nil)`, `("", false, nil)`, or
`("", false, ErrBadPattern)`. -/
inductive ChunkRes where
  | ok (rest : List Char)
  | nomatch
  | bad
deriving DecidableEq, Repr

/-- `getEsc`: parse one (possibly backslash-escaped) character of a
character class; `none` is `ErrBadPattern`.  Errors on an empty chunk, a
leading `-` or `]`, a trailing backslash, and a class element that is not
followed by anything (`len(nchunk) == 0`). -/
def getEsc : List Char → Option (Char × List Char)
  | [] => none
  | c :: rest =>
    if c = '-' ∨ c = ']' then none
    else if c = '\\' then
      match rest with
      | [] => none
      | r :: rest2 => if rest2 = [] then none else some (r, rest2)
    else if rest = [] then none else some (c, rest)

theorem getEsc_length {c : List Char} {r : Char} {rest : List Char}
    (h : getEsc c = some (r, rest)) : rest.length < c.length := by
  match c with
  | [] => simp [getEsc] at h
  | x :: xs =>
    simp only [getEsc] at h
    split at h
    · exact absurd h (by simp)
    · split at h
      · match xs with
        | [] => simp at h
        | y :: ys =>
          simp only at h
          split at h
          · exact absurd h (by simp)
          · cases h
            simp [List.length]
            omega
      · split at h
        · exact absurd h (by simp)
        · cases h; simp

/-- The range-parsing loop of `matchChunk`'s `[` case: consume range
elements `lo` or `lo-hi` until a closing `]` (which only closes after at
least one range), recording whether the class matched `r`. -/
def parseRanges (r : Char) (m : Bool) (nrange : Nat) (chunk : List Char) :
    Option (Bool × List Char) :=
  if chunk.head? = some ']' ∧ 0 < nrange then some (m, chunk.tail)
  else
    match hg : getEsc chunk with
    | none => none
    | some (lo, c1) =>
      match c1 with
      | [] => none  -- unreachable: `getEsc` never returns an empty rest
      | d :: c2 =>
        if d = '-' then
          match hg2 : getEsc c2 with
          | none => none
          | some (hi, c3) =>
            parseRanges r (m || (lo ≤ r ∧ r ≤ hi)) (nrange + 1) c3
        else
          parseRanges r (m || (lo ≤ r ∧ r ≤ lo)) (nrange + 1) (d :: c2)
termination_by chunk.length
decreasing_by
  · have h1 := getEsc_length hg
    have h2 := getEsc_length hg2
    simp only [List.length_cons] at h1 h2 ⊢
    omega
  · exact getEsc_length hg

theorem parseRanges_length {r : Char} {m : Bool} {k : Nat} {chunk : List Char}
    {b : Bool} {rest : List Char}
    (h : parseRanges r m k chunk = some (b, rest)) : rest.length ≤ chunk.length := by
  have H : ∀ n (chunk : List Char), chunk.length ≤ n → ∀ (m : Bool) (k : Nat)
      (b : Bool) (rest : List Char), parseRanges r m k chunk = some (b, rest) →
      rest.length ≤ chunk.length := by
    intro n
    induction n with
    | zero =>
      intro chunk hlen m k b rest h
      have hc : chunk = [] := List.eq_nil_of_length_eq_zero (by omega)
      subst hc
      rw [parseRanges] at h
      simp [getEsc] at h
    | succ n ih =>
      intro chunk hlen m k b rest h
      rw [parseRanges] at h
      split at h
      · cases h
        cases chunk <;> simp
      · split at h
        · exact absurd h (by simp)
        next lo c1 hg =>
          have hlt := getEsc_length hg
          match c1, hlt with
          | [], _ => exact absurd h (by simp)
          | d :: c2, hlt =>
            simp only [List.length_cons] at hlt
            simp only at h
            split at h
            · split at h
              · exact absurd h (by simp)
              next hi c3 hg2 =>
                have hlt2 := getEsc_length hg2
                have hr := ih c3 (by omega) _ _ _ _ h
                omega
            · have hr := ih (d :: c2) (by simp only [List.length_cons]; omega) _ _ _ _ h
              simp only [List.length_cons] at hr ⊢
              omega
  exact H chunk.length chunk le_rfl m k b rest h

/-- Outcome of the star-scan loop inside `Match`: a position matched
(leaving `t`), the pattern was bad, or no position matched. -/
inductive StarRes where
  | found (t : List Char)
  | bad
  | notfound
deriving DecidableEq, Repr

/-- `matchChunk`: match one chunk (no unescaped `*`) against the head of
`s`.  The `failed` flag records that the match has already failed while the
chunk's syntax is still being validated. -/
def matchChunk : List Char → List Char → Bool → ChunkRes
  | [], s, failed => if failed then ChunkRes.nomatch else ChunkRes.ok s
  | c :: ch, s, failed0 =>
    let failed := failed0 || s.isEmpty
    if c = '[' then
      -- character class: decode one rune of s (when not failed)
      let r : Char := if failed then ⟨0, by decide⟩ else s.headD ⟨0, by decide⟩
      let s1 : List Char := if failed then s else s.tail
      -- possibly negated (`len(chunk) > 0 && chunk[0] == '^'`)
      let nb : Bool × List Char :=
        if ch.head? = some '^' then (true, ch.tail) else (false, ch)
      let pr := parseRanges r false 0 nb.2
      if hsome : pr.isSome then
        let p := pr.get hsome
        -- `if match == negated { failed = true }`, then continue on the rest
        matchChunk p.2 s1 (failed || (p.1 = nb.1))
      else ChunkRes.bad
    else if c = '?' then
      if failed then matchChunk ch s failed
      else
        match s with
        | [] => ChunkRes.bad  -- unreachable: ¬failed forces s nonempty
        | x :: s' => matchChunk ch s' (x = '/')
    else if c = '\\' then
      match ch with
      | [] => ChunkRes.bad
      | e :: ch2 =>
        -- fallthrough into the literal-character case with chunk = e :: ch2
        if failed then matchChunk ch2 s failed
        else
          match s with
          | [] => ChunkRes.bad  -- unreachable: ¬failed forces s nonempty
          | x :: s' => matchChunk ch2 s' (decide ¬(e = x))
    else
      if failed then matchChunk ch s failed
      else
        match s with
        | [] => ChunkRes.bad  -- unreachable: ¬failed forces s nonempty
        | x :: s' => matchChunk ch s' (decide ¬(c = x))
termination_by chunk _ _ => chunk.length
decreasing_by
  all_goals simp only [List.length_cons]
  · have heq : parseRanges r false 0 nb.2 = some (pr.get hsome) :=
      (Option.some_get hsome).symm
    have h2 : (pr.get hsome).2.length ≤ nb.2.length :=
      parseRanges_length (by rw [heq])
    have h3 : nb.2.length ≤ ch.length := by
      show (if ch.head? = some '^' then (true, ch.tail) else (false, ch)).2.length
        ≤ ch.length
      split <;> simp [List.length_tail]
    show (pr.get hsome).2.length < ch.length + 1
    omega
  all_goals omega

/-- The star-stripping half of `scanChunk`: consume leading `*`s. -/
def stripStars : List Char → Bool × List Char
  | [] => (false, [])
  | c :: rest => if c = '*' then (true, (stripStars rest).2) else (false, c :: rest)

/-- The scanning half of `scanChunk`: split off one chunk, stopping at an
unescaped `*` outside a character class; a backslash skips the following
character. -/
def scanBody (inrange : Bool) : List Char → List Char × List Char
  | [] => ([], [])
  | c :: rest =>
    if c = '\\' then
      match rest with
      | [] => ([c], [])
      | d :: rest2 =>
        let p := scanBody inrange rest2
        (c :: d :: p.1, p.2)
    else if c = '[' then
      let p := scanBody true rest
      (c :: p.1, p.2)
    else if c = ']' then
      let p := scanBody false rest
      (c :: p.1, p.2)
    else if c = '*' then
      if inrange then
        let p := scanBody inrange rest
        (c :: p.1, p.2)
      else ([], c :: rest)
    else
      let p := scanBody inrange rest
      (c :: p.1, p.2)

/-- `scanChunk`: split a pattern into a leading-star flag, the first
chunk, and the remaining pattern. -/
def scanChunk (pattern : List Char) : Bool × List Char × List Char :=
  let sp := stripStars pattern
  let cr := scanBody false sp.2
  (sp.1, cr.1, cr.2)

theorem stripStars_length (p : List Char) : (stripStars p).2.length ≤ p.length := by
  induction p with
  | nil => simp [stripStars]
  | cons c rest ih =>
    by_cases hc : c = '*' <;> simp [stripStars, hc]
    omega

theorem stripStars_of_not_star (p : List Char) (h : (stripStars p).1 = false) :
    (stripStars p).2 = p := by
  match p with
  | [] => rfl
  | c :: rest =>
    by_cases hc : c = '*' <;> simp [stripStars, hc] at h ⊢

theorem stripStars_lt (p : List Char) (h : (stripStars p).1 = true) :
    (stripStars p).2.length < p.length := by
  match p with
  | [] => simp [stripStars] at h
  | c :: rest =>
    by_cases hc : c = '*'
    · subst hc
      have := stripStars_length rest
      simp [stripStars]
      omega
    · simp [stripStars, hc] at h

theorem stripStars_head_ne_star (p : List Char) (c : List Char) (d : Char)
    (h : (stripStars p).2 = d :: c) : d ≠ '*' := by
  induction p with
  | nil => simp [stripStars] at h
  | cons x rest ih =>
    by_cases hx : x = '*'
    · subst hx
      simp only [stripStars, if_pos rfl] at h
      exact ih h
    · simp [stripStars, hx] at h
      exact fun hd => hx (h.1.trans hd)

theorem scanBody_length (inr : Bool) (p : List Char) :
    (scanBody inr p).1.length + (scanBody inr p).2.length = p.length := by
  have H : ∀ n (p : List Char), p.length ≤ n → ∀ inr : Bool,
      (scanBody inr p).1.length + (scanBody inr p).2.length = p.length := by
    intro n
    induction n with
    | zero =>
      intro p hl inr
      have hp : p = [] := List.eq_nil_of_length_eq_zero (by omega)
      subst hp
      simp [scanBody]
    | succ n ih =>
      intro p hl inr
      match p with
      | [] => simp [scanBody]
      | c :: rest =>
        simp only [List.length_cons] at hl
        by_cases hb : c = '\\'
        · subst hb
          match rest with
          | [] => simp [scanBody]
          | d :: rest2 =>
            simp only [List.length_cons] at hl
            have h := ih rest2 (by omega) inr
            rw [scanBody.eq_def]
            simp
            omega
        · by_cases h4 : c = '['
          · subst h4
            have h := ih rest (by omega) true
            rw [scanBody.eq_def]
            simp
            omega
          · by_cases h5 : c = ']'
            · subst h5
              have h := ih rest (by omega) false
              rw [scanBody.eq_def]
              simp
              omega
            · by_cases h6 : c = '*'
              · subst h6
                cases inr with
                | true =>
                  have h := ih rest (by omega) true
                  rw [scanBody.eq_def]
                  simp
                  omega
                | false =>
                  rw [scanBody.eq_def]
                  simp
              · have h := ih rest (by omega) inr
                rw [scanBody.eq_def]
                simp [hb, h4, h5, h6]
                omega
  exact H p.length p le_rfl inr

theorem scanBody_chunk_ne_nil (inr : Bool) (c : Char) (rest : List Char)
    (hc : c ≠ '*' ∨ inr = true) : (scanBody inr (c :: rest)).1 ≠ [] := by
  by_cases hb : c = '\\'
  · subst hb
    match rest with
    | [] => rw [scanBody.eq_def]; simp
    | d :: rest2 => rw [scanBody.eq_def]; simp
  · by_cases h4 : c = '['
    · subst h4
      rw [scanBody.eq_def]; simp
    · by_cases h5 : c = ']'
      · subst h5
        rw [scanBody.eq_def]; simp
      · by_cases h6 : c = '*'
        · subst h6
          cases hc with
          | inl h => exact absurd rfl h
          | inr h =>
            subst h
            rw [scanBody.eq_def]; simp
        · rw [scanBody.eq_def]; simp [hb, h4, h5, h6]

/-- The remaining pattern returned by `scanChunk` is strictly shorter,
except in the all-stars case (where `Match` returns without recursing). -/
theorem scanChunk_rest_lt (p : List Char) (hp : p ≠ [])
    (hno : ¬((scanChunk p).1 = true ∧ (scanChunk p).2.1 = [])) :
    (scanChunk p).2.2.length < p.length := by
  by_cases hs : (stripStars p).1 = true
  · have hlt := stripStars_lt p hs
    have hlen := scanBody_length false (stripStars p).2
    simp only [scanChunk]
    omega
  · have heq := stripStars_of_not_star p (by simpa using hs)
    have hlen := scanBody_length false (stripStars p).2
    match hst : (stripStars p).2 with
    | [] =>
      rw [heq] at hst
      exact absurd hst hp
    | d :: c =>
      have hd := stripStars_head_ne_star p c d hst
      have hne := scanBody_chunk_ne_nil false d c (Or.inl hd)
      simp only [scanChunk]
      rw [hst] at hlen ⊢
      have : (scanBody false (d :: c)).1.length ≠ 0 := by
        intro h0
        exact hne (List.eq_nil_of_length_eq_zero h0)
      rw [heq] at hst
      subst hst
      simp only [List.length_cons] at hlen ⊢
      omega

/-- The inner `for i` loop of `Match`'s star handling: try to match the
chunk at every later position of `name`, not skipping over a separator;
`lastChunk` records whether this is the final chunk of the pattern (in
which case a position that leaves residue is skipped). -/
def starLoop (chunk : List Char) (lastChunk : Bool) : List Char → StarRes
  | [] => StarRes.notfound
  | x :: name' =>
    if x = '/' then StarRes.notfound
    else
      match matchChunk chunk name' false with
      | .ok t =>
        if lastChunk ∧ t ≠ [] then starLoop chunk lastChunk name'
        else StarRes.found t
      | .bad => StarRes.bad
      | .nomatch => starLoop chunk lastChunk name'

/-- For a nonempty pattern, one `scanChunk` step always leaves a strictly
shorter remaining pattern. -/
theorem scanChunk_rest_lt_cons (c : Char) (rest : List Char) :
    (scanChunk (c :: rest)).2.2.length < (c :: rest).length := by
  by_cases hs : (stripStars (c :: rest)).1 = true
  · have hlen := scanBody_length false (stripStars (c :: rest)).2
    have hlt := stripStars_lt (c :: rest) hs
    simp only [scanChunk]
    omega
  · refine scanChunk_rest_lt (c :: rest) (by simp) ?_
    intro hall
    exact hs hall.1

/-- The syntactic-validity sweep `Match` performs over the rest of the
pattern before returning `false` with no error. -/
def checkValidity : List Char → MatchRes
  | [] => MatchRes.res false
  | c :: rest0 =>
    let scr := scanChunk (c :: rest0)
    match matchChunk scr.2.1 [] false with
    | .bad => MatchRes.bad
    | _ => checkValidity scr.2.2
termination_by p => p.length
decreasing_by
  exact scanChunk_rest_lt_cons _ _

/-- `filepath.Match` (pattern, name): chunk-by-chunk matching with star
backtracking, exactly following the Go loop structure. -/
def matchGo (pattern name : List Char) : MatchRes :=
  match pattern with
  | [] => MatchRes.res name.isEmpty
  | c :: rest0 =>
    let scr := scanChunk (c :: rest0)
    let star := scr.1
    let chunk := scr.2.1
    let rest := scr.2.2
    if star = true ∧ chunk = [] then
      -- trailing * matches the rest of the string unless it has a /
      MatchRes.res (!name.contains '/')
    else
      -- the fall-through taken when the chunk neither matched-and-continued
      -- nor produced an error: star scan, then validity sweep
      let tail : MatchRes :=
        if star then
          match starLoop chunk rest.isEmpty name with
          | .found t => matchGo rest t
          | .bad => MatchRes.bad
          | .notfound => checkValidity rest
        else checkValidity rest
      match matchChunk chunk name false with
      | .ok t => if t.isEmpty || !rest.isEmpty then matchGo rest t else tail
      | .bad => MatchRes.bad
      | .nomatch => tail
termination_by pattern.length
decreasing_by
  all_goals exact scanChunk_rest_lt_cons _ _

/-- The producer's use of the matcher:
`match, _ := filepath.Match(pattern, name)` — the returned boolean with
the error discarded (every Go error return carries `matched = false`). -/
def matchBool (pattern name : String) : Bool :=
  match matchGo pattern.data name.data with
  | .res b => b
  | .bad => false

/-- One job: the path sent on the `jobs` channel, together with the on-disk
behaviour of that path (fixed by the file-system snapshot). -/
structure Job where
  path : Path
  file : FileSpec
deriving DecidableEq, Repr

/-- The body of `worker`: hash the job's file and build the `Result`
`{FilePath, Hash, Error}` it sends on the results channel. -/
def workerResult (hasher : List Nat → String) (j : Job) : Result :=
  let hr := hashFile hasher j.file
  ⟨j.path, hr.1, hr.2⟩

/-! ## The discovery producer (`filepath.Walk` + the walk callback)

A file-system snapshot is a tree.  `filepath.Walk` visits each entry: an
entry whose `lstat` fails reaches the callback with a non-nil `err`; a
directory whose `readDirNames` fails reaches the callback once with that
error and its children are skipped; otherwise a directory is visited (the
callback sees `info.IsDir()`, emits nothing) and then its children in
order, and a file is visited once.  The callback in `pipeline.Run` /
`main.go` sends a `Result{FilePath: p, Error: err}` for an errored visit
and returns `nil` (so traversal always continues), sends the path on
`jobs` for a non-directory whose base name matches the pattern, and
ignores everything else. -/

/-- A node of the file-system snapshot: a regular file with its behaviour,
a directory (whose listing may fail), or an entry whose `lstat` fails. -/
inductive FSTree where
  | file (name : String) (spec : FileSpec)
  | dir (name : String) (readErr : Bool) (entries : List FSTree)
  | errEntry (name : String)
deriving Repr

/-- The entry's base name, i.e. `info.Name()`. -/
def FSTree.name : FSTree → String
  | .file n _ => n
  | .dir n _ _ => n
  | .errEntry n => n

/-- An observable action of the producer: a path sent on the `jobs`
channel, or an error `Result` sent directly on the `results` channel. -/
inductive Ev where
  | job (j : Job)
  | errRes (path : Path)
deriving DecidableEq, Repr

/-- The `Result` the collector receives for a traversal error:
`Result{FilePath: path, Error: err}` — no digest. -/
def errResult (p : Path) : Result := ⟨p, "", some GoErr.walkFailure⟩

mutual

/-- The sequence of channel sends the walk callback performs for the
subtree rooted at `t`, whose path is `parent ++ [t.name]`. -/
def walkTree (pattern : String) (parent : Path) : FSTree → List Ev
  | .errEntry n => [Ev.errRes (parent ++ [n])]
  | .file n spec =>
    if matchBool pattern n then [Ev.job ⟨parent ++ [n], spec⟩] else []
  | .dir n readErr entries =>
    if readErr then [Ev.errRes (parent ++ [n])]
    else walkList pattern (parent ++ [n]) entries

/-- The walk events of a directory's entries, in listing order. -/
def walkList (pattern : String) (parent : Path) : List FSTree → List Ev
  | [] => []
  | t :: ts => walkTree pattern parent t ++ walkList pattern parent ts

end

/-- All walk events of a run: `filepath.Walk(cfg.Path, …)` where the
configured root path is `parent ++ [t.name]`. -/
def walkEvents (pattern : String) (parent : Path) (t : FSTree) : List Ev :=
  walkTree pattern parent t

/-- The `Result` that one walk event eventually contributes: a traversal
error is sent as an error `Result` by the producer itself; a job is hashed
by some worker. -/
def evResult (hasher : List Nat → String) : Ev → Result
  | .job j => workerResult hasher j
  | .errRes p => errResult p

/-- The jobs among a list of walk events, in order. -/
def jobsOf (evs : List Ev) : List Job :=
  evs.filterMap fun e => match e with
    | .job j => some j
    | .errRes _ => none

/-- The traversal-error paths among a list of walk events, in order. -/
def errsOf (evs : List Ev) : List Path :=
  evs.filterMap fun e => match e with
    | .job _ => none
    | .errRes p => some p

/-! ## The concurrent pipeline as a small-step state machine

`main.go` (and `pipeline.Run`) wires: a producer goroutine that performs
the walk sends and then `close(jobs)`; `NumWorkers` workers looping
`for filePath := range jobs { results <- … }` (a worker terminates when
the job channel is closed and drained); and a goroutine doing `wg.Wait();
close(results)`.  The two channels are abstracted as FIFO queues; a
schedule is an arbitrary list of actions, each either enabled (performing
one atomic send/receive/close/termination) or blocked. -/

/-- Status of one worker goroutine: waiting on the `jobs` channel, hashing
a received job, or terminated (its `wg.Done()` has run). -/
inductive WStatus where
  | idle
  | busy (j : Job)
  | done
deriving DecidableEq, Repr

/-- State of one pipeline run. -/
structure PipeState where
  pending : List Ev
  jobsClosed : Bool
  jobQ : List Job
  workers : List WStatus
  results : List Result
  resultsClosed : Bool
deriving DecidableEq, Repr

/-- Initial state: the producer has the whole walk ahead of it, all
workers are blocked on the empty `jobs` channel, nothing is closed. -/
def initState (pattern : String) (parent : Path) (t : FSTree) (numWorkers : Nat) :
    PipeState :=
  ⟨walkEvents pattern parent t, false, [], List.replicate numWorkers WStatus.idle,
    [], false⟩

/-- One scheduler action: the producer performs its next channel send; the
producer closes `jobs`; worker `i` receives a job; worker `i` sends its
result; worker `i` observes `jobs` closed-and-drained and terminates; the
waiter goroutine observes `wg.Wait()` and closes `results`. -/
inductive Act where
  | produce
  | closeJobs
  | take (i : Nat)
  | emit (i : Nat)
  | wexit (i : Nat)
  | closeResults
deriving DecidableEq, Repr

/-- `wg.Wait()` has returned: every worker has terminated. -/
def allDone (ws : List WStatus) : Bool := ws.all fun w => w = WStatus.done

/-- One atomic step; `none` means the action is not enabled (the goroutine
is blocked or already finished). -/
def step (hasher : List Nat → String) (s : PipeState) : Act → Option PipeState
  | .produce =>
    if s.jobsClosed then none
    else
      match s.pending with
      | [] => none
      | Ev.job j :: rest =>
        some { s with pending := rest, jobQ := s.jobQ ++ [j] }
      | Ev.errRes p :: rest =>
        some { s with pending := rest, results := s.results ++ [errResult p] }
  | .closeJobs =>
    if s.pending = [] ∧ s.jobsClosed = false then some { s with jobsClosed := true }
    else none
  | .take i =>
    match s.workers[i]? with
    | some WStatus.idle =>
      match s.jobQ with
      | [] => none
      | j :: q => some { s with jobQ := q, workers := s.workers.set i (WStatus.busy j) }
    | _ => none
  | .emit i =>
    match s.workers[i]? with
    | some (WStatus.busy j) =>
      some { s with results := s.results ++ [workerResult hasher j],
                    workers := s.workers.set i WStatus.idle }
    | _ => none
  | .wexit i =>
    match s.workers[i]? with
    | some WStatus.idle =>
      if s.jobsClosed = true ∧ s.jobQ = [] then
        some { s with workers := s.workers.set i WStatus.done }
      else none
    | _ => none
  | .closeResults =>
    if allDone s.workers = true ∧ s.resultsClosed = false then
      some { s with resultsClosed := true }
    else none

/-- Run a whole schedule (failing if any action is not enabled). -/
def run (hasher : List Nat → String) (s : PipeState) : List Act → Option PipeState
  | [] => some s
  | a :: acts =>
    match step hasher s a with
    | none => none
    | some s' => run hasher s' acts

/-- The jobs currently being hashed by some worker. -/
def busyJobs (ws : List WStatus) : List Job :=
  ws.filterMap fun w => match w with
    | WStatus.busy j => some j
    | _ => none

/-- The results that are still owed: events the producer has not yet sent,
jobs sitting in the `jobs` channel, and jobs held by busy workers. -/
def outstanding (hasher : List Nat → String) (s : PipeState) : List Result :=
  s.pending.map (evResult hasher) ++ s.jobQ.map (workerResult hasher) ++
    (busyJobs s.workers).map (workerResult hasher)

/-- The pipeline invariant: (1) emitted plus owed results form exactly the
expected multiset; (2) the job channel closes only after the producer has
sent everything; (3) the result channel closes only after every worker has
terminated (and jobs closed); (4) a worker terminates only once the job
channel is closed and drained; (5) the worker pool is nonempty. -/
def Inv (hasher : List Nat → String) (expected : List Result) (s : PipeState) : Prop :=
  ((s.results ++ outstanding hasher s : List Result) : Multiset Result) =
      (expected : Multiset Result)
  ∧ (s.jobsClosed = true → s.pending = [])
  ∧ (s.resultsClosed = true → s.jobsClosed = true ∧ allDone s.workers = true)
  ∧ ((∃ w ∈ s.workers, w = WStatus.done) → s.jobsClosed = true ∧ s.jobQ = [])
  ∧ s.workers ≠ []

/-- The job a worker status holds, if any. -/
def wJobs : WStatus → List Job
  | WStatus.busy j => [j]
  | _ => []

theorem busyJobs_cons (w : WStatus) (t : List WStatus) :
    busyJobs (w :: t) = wJobs w ++ busyJobs t := by
  cases w <;> simp [busyJobs, wJobs]

theorem busyJobs_set (ws : List WStatus) (i : Nat) (w new : WStatus)
    (h : ws[i]? = some w) :
    (busyJobs (ws.set i new) : Multiset Job) + (wJobs w : Multiset Job) =
      (busyJobs ws : Multiset Job) + (wJobs new : Multiset Job) := by
  induction ws generalizing i with
  | nil => simp at h
  | cons x t ih =>
    cases i with
    | zero =>
      simp only [List.getElem?_cons_zero, Option.some_inj] at h
      subst h
      simp only [List.set_cons_zero, busyJobs_cons, ← Multiset.coe_add]
      abel
    | succ i =>
      simp only [List.getElem?_cons_succ] at h
      have := ih i h
      simp only [List.set_cons_succ, busyJobs_cons, ← Multiset.coe_add]
      have goal : (busyJobs (t.set i new) : Multiset Job) + wJobs w =
          (busyJobs t : Multiset Job) + wJobs new := this
      calc (wJobs x : Multiset Job) + busyJobs (t.set i new) + wJobs w
          = (wJobs x : Multiset Job) + ((busyJobs (t.set i new) : Multiset Job) + wJobs w) := by
            abel
        _ = (wJobs x : Multiset Job) + ((busyJobs t : Multiset Job) + wJobs new) := by
            rw [goal]
        _ = (wJobs x : Multiset Job) + busyJobs t + wJobs new := by abel

theorem getElem?_some_mem {α : Type u} {l : List α} {i : Nat} {a : α}
    (h : l[i]? = some a) : a ∈ l := by
  induction l generalizing i with
  | nil => simp at h
  | cons x t ih =>
    cases i with
    | zero =>
      simp only [List.getElem?_cons_zero, Option.some_inj] at h
      simp [h]
    | succ i =>
      simp only [List.getElem?_cons_succ] at h
      exact List.mem_cons_of_mem _ (ih h)

theorem allDone_elem {ws : List WStatus} (h : allDone ws = true) {i : Nat}
    {w : WStatus} (hi : ws[i]? = some w) : w = WStatus.done := by
  have hmem : w ∈ ws := getElem?_some_mem hi
  have := List.all_eq_true.mp h w hmem
  simpa using this

theorem allDone_busyJobs {ws : List WStatus} (h : allDone ws = true) :
    busyJobs ws = [] := by
  induction ws with
  | nil => rfl
  | cons x t ih =>
    simp only [allDone, List.all_cons, Bool.and_eq_true] at h
    have hx : x = WStatus.done := by simpa using h.1
    subst hx
    simp only [busyJobs_cons, wJobs, List.nil_append]
    exact ih h.2

theorem set_ne_nil {ws : List WStatus} (h : ws ≠ []) (i : Nat) (v : WStatus) :
    ws.set i v ≠ [] := by
  cases ws with
  | nil => exact absurd rfl h
  | cons x t => cases i <;> simp

/-- Every enabled action preserves the pipeline invariant. -/
theorem step_inv {hasher : List Nat → String} {expected : List Result}
    {s s' : PipeState} {a : Act}
    (ha : step hasher s a = some s') (h : Inv hasher expected s) :
    Inv hasher expected s' := by
  obtain ⟨h1, h2, h3, h4, h5⟩ := h
  cases a with
  | produce =>
    simp only [step] at ha
    split at ha
    · exact absurd ha (by simp)
    next hjc =>
      split at ha
      · exact absurd ha (by simp)
      next j rest hpend =>
        cases ha
        refine ⟨?_, ?_, ?_, ?_, h5⟩
        · rw [← h1]
          simp only [outstanding]
          rw [hpend]
          simp only [List.map_cons, List.map_append, List.map_nil,
            evResult, ← Multiset.coe_add, ← Multiset.cons_coe, Multiset.coe_nil,
            ← Multiset.singleton_add]
          abel
        · intro hc
          simp only at hc
          exact absurd hc (by simpa using hjc)
        · intro hc
          simp only at hc
          obtain ⟨hjc', _⟩ := h3 hc
          exact absurd hjc' (by simpa using hjc)
        · intro hex
          obtain ⟨hjc', _⟩ := h4 hex
          exact absurd hjc' (by simpa using hjc)
      next p rest hpend =>
        cases ha
        refine ⟨?_, ?_, ?_, ?_, h5⟩
        · rw [← h1]
          simp only [outstanding]
          rw [hpend]
          simp only [List.map_cons, List.map_append, List.map_nil,
            evResult, ← Multiset.coe_add, ← Multiset.cons_coe, Multiset.coe_nil,
            ← Multiset.singleton_add]
          abel
        · intro hc
          simp only at hc
          exact absurd hc (by simpa using hjc)
        · intro hc
          simp only at hc
          obtain ⟨hjc', _⟩ := h3 hc
          exact absurd hjc' (by simpa using hjc)
        · intro hex
          obtain ⟨hjc', _⟩ := h4 hex
          exact absurd hjc' (by simpa using hjc)
  | closeJobs =>
    simp only [step] at ha
    split at ha
    next hcond =>
      cases ha
      refine ⟨h1, fun _ => hcond.1, ?_, ?_, h5⟩
      · intro hc
        simp only at hc
        exact absurd (h3 hc).1 (by simp [hcond.2])
      · intro hex
        exact absurd (h4 hex).1 (by simp [hcond.2])
    · exact absurd ha (by simp)
  | take i =>
    simp only [step] at ha
    split at ha
    next hw =>
      split at ha
      · exact absurd ha (by simp)
      next j q hq =>
        cases ha
        refine ⟨?_, h2, ?_, ?_, set_ne_nil h5 i _⟩
        · rw [← h1]
          have hb := busyJobs_set s.workers i WStatus.idle (WStatus.busy j) hw
          simp only [wJobs, Multiset.coe_nil, add_zero] at hb
          have hb2 : ((busyJobs (s.workers.set i (WStatus.busy j))).map
                (workerResult hasher) : Multiset Result) =
              ((busyJobs s.workers).map (workerResult hasher) : Multiset Result) +
                {workerResult hasher j} := by
            have hm := congrArg (Multiset.map (workerResult hasher)) hb
            simpa only [Multiset.map_coe, Multiset.map_add, List.map_cons,
              List.map_nil, Multiset.coe_singleton] using hm
          simp only [outstanding]
          rw [hq]
          simp only [List.map_cons, List.map_append, List.map_nil,
            ← Multiset.coe_add, ← Multiset.cons_coe, Multiset.coe_nil,
            ← Multiset.singleton_add]
          rw [hb2]
          abel
        · intro hc
          simp only at hc
          obtain ⟨hjc', had⟩ := h3 hc
          exact absurd (allDone_elem had hw) (by simp)
        · intro hex
          simp only at hex
          obtain ⟨w, hmem, hdone⟩ := hex
          rcases List.mem_or_eq_of_mem_set hmem with hmem' | heq
          · obtain ⟨hjc', hq'⟩ := h4 ⟨w, hmem', hdone⟩
            rw [hq] at hq'
            exact absurd hq' (by simp)
          · rw [hdone] at heq
            exact absurd heq (by simp)
    · exact absurd ha (by simp)
  | emit i =>
    simp only [step] at ha
    split at ha
    next j hw =>
      cases ha
      refine ⟨?_, h2, ?_, ?_, set_ne_nil h5 i _⟩
      · rw [← h1]
        have hb := busyJobs_set s.workers i (WStatus.busy j) WStatus.idle hw
        simp only [wJobs, Multiset.coe_nil, add_zero] at hb
        have hb2 : ((busyJobs s.workers).map (workerResult hasher) : Multiset Result) =
            ((busyJobs (s.workers.set i WStatus.idle)).map
              (workerResult hasher) : Multiset Result) + {workerResult hasher j} := by
          have hm := congrArg (Multiset.map (workerResult hasher)) hb.symm
          simpa only [Multiset.map_coe, Multiset.map_add, List.map_cons,
            List.map_nil, Multiset.coe_singleton] using hm
        simp only [outstanding]
        simp only [List.map_cons, List.map_append, List.map_nil,
          ← Multiset.coe_add, ← Multiset.cons_coe, Multiset.coe_nil,
          ← Multiset.singleton_add]
        rw [hb2]
        abel
      · intro hc
        simp only at hc
        obtain ⟨hjc', had⟩ := h3 hc
        exact absurd (allDone_elem had hw) (by simp)
      · intro hex
        simp only at hex
        obtain ⟨w, hmem, hdone⟩ := hex
        rcases List.mem_or_eq_of_mem_set hmem with hmem' | heq
        · exact h4 ⟨w, hmem', hdone⟩
        · rw [hdone] at heq
          exact absurd heq (by simp)
    · exact absurd ha (by simp)
  | wexit i =>
    simp only [step] at ha
    split at ha
    next hw =>
      split at ha
      next hcond =>
        cases ha
        refine ⟨?_, h2, ?_, fun _ => hcond, set_ne_nil h5 i _⟩
        · rw [← h1]
          have hb := busyJobs_set s.workers i WStatus.idle WStatus.done hw
          simp only [wJobs, Multiset.coe_nil, add_zero] at hb
          have hmap : ((busyJobs (s.workers.set i WStatus.done)).map
                (workerResult hasher) : Multiset Result) =
              ((busyJobs s.workers).map (workerResult hasher) : Multiset Result) := by
            have := congrArg (Multiset.map (workerResult hasher)) hb
            simpa [Multiset.map_coe] using this
          simp only [outstanding, ← Multiset.coe_add]
          rw [hmap]
        · intro hc
          simp only at hc
          obtain ⟨hjc', had⟩ := h3 hc
          exact absurd (allDone_elem had hw) (by simp)
      · exact absurd ha (by simp)
    · exact absurd ha (by simp)
  | closeResults =>
    simp only [step] at ha
    split at ha
    next hcond =>
      cases ha
      have hz := h4
      refine ⟨h1, h2, ?_, h4, h5⟩
      intro _
      have hne := h5
      obtain ⟨w, hmem⟩ := List.exists_mem_of_ne_nil _ hne
      have hdone : w = WStatus.done := by
        have := List.all_eq_true.mp hcond.1 w hmem
        simpa using this
      exact ⟨(h4 ⟨w, hmem, hdone⟩).1, hcond.1⟩
    · exact absurd ha (by simp)

/-- A whole schedule preserves the invariant. -/
theorem run_inv {hasher : List Nat → String} {expected : List Result}
    {acts : List Act} {s s' : PipeState}
    (hr : run hasher s acts = some s') (h : Inv hasher expected s) :
    Inv hasher expected s' := by
  induction acts generalizing s with
  | nil =>
    simp only [run, Option.some_inj] at hr
    exact hr ▸ h
  | cons a acts ih =>
    simp only [run] at hr
    split at hr
    · exact absurd hr (by simp)
    next s1 hstep => exact ih hr (step_inv hstep h)

theorem busyJobs_replicate_idle (n : Nat) :
    busyJobs (List.replicate n WStatus.idle) = [] := by
  induction n with
  | zero => rfl
  | succ n ih => simp only [List.replicate_succ, busyJobs_cons, wJobs, ih, List.append_nil]

/-- The initial state satisfies the invariant (for a nonempty pool). -/
theorem initState_inv (hasher : List Nat → String) (pattern : String) (parent : Path)
    (t : FSTree) (numWorkers : Nat) (hw : 0 < numWorkers) :
    Inv hasher ((walkEvents pattern parent t).map (evResult hasher))
      (initState pattern parent t numWorkers) := by
  refine ⟨?_, ?_, ?_, ?_, ?_⟩
  · simp [initState, outstanding, busyJobs_replicate_idle]
  · intro hc
    simp [initState] at hc
  · intro hc
    simp [initState] at hc
  · intro hex
    obtain ⟨w, hmem, hdone⟩ := hex
    rw [List.eq_of_mem_replicate hmem] at hdone
    exact absurd hdone (by simp)
  · simp only [initState, ne_eq]
    intro hnil
    have := congrArg List.length hnil
    simp at this
    omega

/-- Any completed schedule (one that closed the result channel) has closed
the job channel, terminated and drained everything, and delivered exactly
the expected results up to permutation. -/
theorem run_complete
    (hasher : List Nat → String) (pattern : String) (parent : Path) (t : FSTree)
    (numWorkers : Nat) (hw : 0 < numWorkers) (acts : List Act) (s' : PipeState)
    (hr : run hasher (initState pattern parent t numWorkers) acts = some s')
    (hc : s'.resultsClosed = true) :
    s'.results.Perm ((walkEvents pattern parent t).map (evResult hasher)) ∧
      s'.jobsClosed = true ∧ allDone s'.workers = true ∧
      s'.jobQ = [] ∧ s'.pending = [] := by
  have hinv := run_inv hr (initState_inv hasher pattern parent t numWorkers hw)
  obtain ⟨h1, h2, h3, h4, h5⟩ := hinv
  obtain ⟨hjc, had⟩ := h3 hc
  obtain ⟨w, hmem⟩ := List.exists_mem_of_ne_nil _ h5
  have hwdone : w = WStatus.done := by
    simpa using List.all_eq_true.mp had w hmem
  obtain ⟨hjc2, hq⟩ := h4 ⟨w, hmem, hwdone⟩
  have hpend := h2 hjc
  have hout : outstanding hasher s' = [] := by
    simp [outstanding, hpend, hq, allDone_busyJobs had]
  rw [hout, List.append_nil] at h1
  exact ⟨Multiset.coe_eq_coe.mp h1, hjc, had, hq, hpend⟩

/-- **C1.**  For every run of the pipeline, each file path emitted as a Job
and each traversal error yields exactly one `Result` on the result stream
(no `Result` lost, none duplicated): in every completed schedule (one that
has closed the result channel), the emitted results are a permutation of
one result per walk event.  Moreover the result channel is closed only
after the job channel has been closed by the producer (which has sent
everything), every worker has terminated, and the job channel has been
drained. -/
theorem pipeline_exactly_once
    (hasher : List Nat → String) (pattern : String) (parent : Path) (t : FSTree)
    (numWorkers : Nat) (hw : 0 < numWorkers) (acts : List Act) (s' : PipeState)
    (hr : run hasher (initState pattern parent t numWorkers) acts = some s')
    (hc : s'.resultsClosed = true) :
    s'.results.Perm ((walkEvents pattern parent t).map (evResult hasher)) ∧
      s'.jobsClosed = true ∧ allDone s'.workers = true ∧
      s'.jobQ = [] ∧ s'.pending = [] :=
  run_complete hasher pattern parent t numWorkers hw acts s' hr hc

/-- Witness for C1: a one-file tree, one worker, and the natural schedule;
the run completes and delivers exactly the one expected result. -/
theorem pipeline_exactly_once_witness :
    (0 : Nat) < 1 ∧
      (PipeState.mk [] true [] [WStatus.done]
          [⟨["r", "a.txt"], "h", none⟩] true).results.Perm
        ((walkEvents "*" ["r"] (FSTree.file "a.txt" ⟨[], false, false, false⟩)).map
          (evResult fun _ => "h")) := by
  constructor
  · decide
  · refine (pipeline_exactly_once (fun _ => "h") "*" ["r"]
      (FSTree.file "a.txt" ⟨[], false, false, false⟩) 1 (by decide)
      [Act.produce, Act.closeJobs, Act.take 0, Act.emit 0, Act.wexit 0, Act.closeResults]
      _ ?_ rfl).1
    simp [run, step, initState, walkEvents, walkTree, matchBool, matchGo, scanChunk,
      stripStars, scanBody, allDone, workerResult, hashFile]

/-! ## Producer error isolation (C5) -/

theorem walkList_append (pattern : String) (parent : Path) (l1 l2 : List FSTree) :
    walkList pattern parent (l1 ++ l2) =
      walkList pattern parent l1 ++ walkList pattern parent l2 := by
  induction l1 with
  | nil => simp [walkList]
  | cons t ts ih => simp [walkList, ih]

/-- **C5.**  A traversal error anywhere in the tree never halts the
traversal: the events of a sibling list decompose entry by entry, so an
erroring entry contributes its own events and the walk proceeds with all
sibling and subsequent entries; an entry whose `lstat` fails and a
directory whose listing fails each contribute exactly one error event; and
that event's `Result` carries the path, no digest, and the error. -/
theorem producer_error_isolation (pattern : String) (parent : Path)
    (pre post : List FSTree) (t : FSTree) (n : String) (entries : List FSTree)
    (hasher : List Nat → String) :
    walkList pattern parent (pre ++ t :: post) =
        walkList pattern parent pre ++ walkTree pattern parent t ++
          walkList pattern parent post
      ∧ walkTree pattern parent (FSTree.errEntry n) = [Ev.errRes (parent ++ [n])]
      ∧ walkTree pattern parent (FSTree.dir n true entries) =
          [Ev.errRes (parent ++ [n])]
      ∧ evResult hasher (Ev.errRes (parent ++ [n])) =
          ⟨parent ++ [n], "", some GoErr.walkFailure⟩ := by
  refine ⟨?_, rfl, rfl, rfl⟩
  rw [walkList_append]
  simp [walkList, List.append_assoc]

/-! ## Job discovery (C4) -/

mutual

/-- The non-directory entries the walk visits successfully (an entry whose
`lstat` fails carries no `IsDir` information and becomes an error result;
an unreadable directory's children are never listed), with their paths,
base names and behaviours. -/
def walkedFiles (parent : Path) : FSTree → List (Path × String × FileSpec)
  | .file n spec => [(parent ++ [n], n, spec)]
  | .dir n readErr entries =>
    if readErr then [] else walkedFilesList (parent ++ [n]) entries
  | .errEntry _ => []

/-- `walkedFiles` over a directory's entries, in listing order. -/
def walkedFilesList (parent : Path) : List FSTree → List (Path × String × FileSpec)
  | [] => []
  | t :: ts => walkedFiles parent t ++ walkedFilesList parent ts

end

/-- A pattern on which `filepath.Match` reports `ErrBadPattern` whatever
the name is (the producer discards the error, reading the accompanying
`matched = false`). -/
def MalformedPattern (pattern : String) : Prop :=
  ∀ name : String, matchGo pattern.data name.data = MatchRes.bad

mutual

theorem jobsOf_walkTree (pattern : String) (parent : Path) (t : FSTree) :
    jobsOf (walkTree pattern parent t) =
      ((walkedFiles parent t).filter fun f => matchBool pattern f.2.1).map
        fun f => ⟨f.1, f.2.2⟩ := by
  match t with
  | .file n spec =>
    by_cases hm : matchBool pattern n <;>
      simp [walkTree, walkedFiles, jobsOf, hm]
  | .dir n readErr entries =>
    cases readErr with
    | true => rfl
    | false => exact jobsOf_walkList pattern (parent ++ [n]) entries
  | .errEntry n => simp [walkTree, walkedFiles, jobsOf]

theorem jobsOf_walkList (pattern : String) (parent : Path) (ts : List FSTree) :
    jobsOf (walkList pattern parent ts) =
      ((walkedFilesList parent ts).filter fun f => matchBool pattern f.2.1).map
        fun f => ⟨f.1, f.2.2⟩ := by
  match ts with
  | [] => simp [walkList, walkedFilesList, jobsOf]
  | t :: rest =>
    simp only [walkList, walkedFilesList, jobsOf, List.filterMap_append,
      List.filter_append, List.map_append]
    rw [← jobsOf, ← jobsOf, jobsOf_walkTree pattern parent t,
      jobsOf_walkList pattern parent rest]

end

/-- A chunk that is a bare `[` is a syntax error whatever the name and
whatever the failure flag. -/
theorem matchChunk_lbracket (nm : List Char) (failed : Bool) :
    matchChunk ['['] nm failed = ChunkRes.bad := by
  have hpr : ∀ r : Char, parseRanges r false 0 ([] : List Char) = none := by
    intro r
    rw [parseRanges]
    simp [getEsc]
  rw [matchChunk.eq_def]
  simp [hpr]

/-- The pattern `"["` is malformed: `Match` reports `ErrBadPattern` for
every name. -/
theorem malformed_lbracket : MalformedPattern "[" := by
  intro name
  show matchGo ['['] name.data = MatchRes.bad
  rw [matchGo.eq_def]
  simp [scanChunk, stripStars, scanBody, matchChunk_lbracket]

/-- **C4.**  The jobs the producer emits are exactly the successfully
visited non-directory entries whose base name matches the pattern (so a
directory is never emitted as a job), and a malformed pattern — one on
which `Match` errors for every name — matches no name and yields zero
jobs instead of a fatal error. -/
theorem discovery_job_set (pattern : String) (parent : Path) (t : FSTree) :
    jobsOf (walkEvents pattern parent t) =
        ((walkedFiles parent t).filter fun f => matchBool pattern f.2.1).map
          (fun f => Job.mk f.1 f.2.2)
      ∧ (MalformedPattern pattern → jobsOf (walkEvents pattern parent t) = []) := by
  refine ⟨jobsOf_walkTree pattern parent t, ?_⟩
  intro hmal
  rw [walkEvents, jobsOf_walkTree]
  have hfalse : ∀ f ∈ walkedFiles parent t, ¬(matchBool pattern f.2.1 = true) := by
    intro f _
    unfold matchBool
    rw [hmal f.2.1]
    simp
  rw [List.filter_eq_nil_iff.mpr hfalse]
  rfl

/-- Witness for C4: the malformed pattern `"["` produces zero jobs over a
tree containing a matching-named file. -/
theorem discovery_job_set_witness :
    jobsOf (walkEvents "[" ["r"]
        (FSTree.dir "d" false [FSTree.file "a.txt" ⟨[], false, false, false⟩])) = [] :=
  (discovery_job_set "[" ["r"]
      (FSTree.dir "d" false [FSTree.file "a.txt" ⟨[], false, false, false⟩])).2
    malformed_lbracket

/-! ## The result collector (`processResults`, main.go)

`processResults` drains the result stream: an error result is appended to
the error list; a success is recorded in the output map keyed by its
`FilePath`; with `-rename` the file is renamed to `<digest><ext>` in its
directory unless the target exists (then an already-exists error and
`continue`); with `-display` and no `-out-file` the pair is printed. -/

/-- The command-line configuration (`parseFlags`). -/
structure Config where
  FilePattern : String
  RootPath : Path
  HashType : String
  OutFile : String
  Rename : Bool
  Display : Bool
  Version : Bool
  NumWorkers : Nat
deriving DecidableEq, Repr

/-- Go map assignment `m[k] = v`: replace the binding if the key is
present, otherwise add it. -/
def mapInsert (m : List (Path × String)) (k : Path) (v : String) :
    List (Path × String) :=
  match m with
  | [] => [(k, v)]
  | (k', v') :: rest =>
    if k' = k then (k, v) :: rest else (k', v') :: mapInsert rest k v

/-- Go map lookup `m[k]`. -/
def mapGet (m : List (Path × String)) (k : Path) : Option String :=
  match m with
  | [] => none
  | (k', v') :: rest => if k' = k then some v' else mapGet rest k

/-- The suffix of a base name starting at its last dot (including the
dot), or empty — `filepath.Ext` restricted to a name with no separator. -/
def lastDotSuffix : List Char → List Char
  | [] => []
  | c :: rest =>
    if '.' ∈ rest then lastDotSuffix rest
    else if c = '.' then c :: rest
    else []

/-- `filepath.Ext` of a path whose base name is `name`. -/
def goExt (name : String) : String := ⟨lastDotSuffix name.data⟩

/-- `filepath.Join(filepath.Dir(path), hash + filepath.Ext(path))`: the
digest-named sibling of `path`. -/
def renameTarget (path : Path) (hash : String) : Path :=
  path.dropLast ++ [hash ++ goExt (path.getLastD "")]

/-- State threaded through the collector loop: the output map, the error
list (path plus error kind), the file system visible to `os.Stat` /
`os.Rename`, and the lines printed to the console. -/
structure PRState where
  output : List (Path × String)
  errs : List (Path × GoErr)
  fs : Path → Option (List Nat)
  printed : List (Path × String)

/-- The `if cfg.Rename { … }` block for one successful result.  Returns
the new state and whether the loop `continue`d (which skips the display
step).  `os.Stat(newPath)` succeeds iff the target exists; `os.Rename`
moves the file and fails iff the source is gone. -/
def renameBlock (cfg : Config) (st : PRState) (r : Result) : PRState × Bool :=
  if cfg.Rename = false then (st, false)
  else
    let newPath := renameTarget r.FilePath r.Hash
    if (st.fs newPath).isSome then
      ({ st with errs := st.errs ++ [(r.FilePath, GoErr.alreadyExists)] }, true)
    else
      match st.fs r.FilePath with
      | some content =>
        ({ st with fs := fun q =>
            if q = newPath then some content
            else if q = r.FilePath then none
            else st.fs q }, false)
      | none =>
        ({ st with errs := st.errs ++ [(r.FilePath, GoErr.renameFailure)] }, false)

/-- One iteration of the `for result := range results` loop. -/
def processOne (cfg : Config) (st : PRState) (r : Result) : PRState :=
  match r.Error with
  | some e => { st with errs := st.errs ++ [(r.FilePath, e)] }
  | none =>
    let st1 := { st with output := mapInsert st.output r.FilePath r.Hash }
    match renameBlock cfg st1 r with
    | (st2, true) => st2
    | (st2, false) =>
      if cfg.Display = true ∧ cfg.OutFile = "" then
        { st2 with printed := st2.printed ++ [(r.FilePath, r.Hash)] }
      else st2

/-- `processResults`: drain the whole result stream. -/
def processResults (cfg : Config) (results : List Result)
    (fs0 : Path → Option (List Nat)) : PRState :=
  results.foldl (processOne cfg) ⟨[], [], fs0, []⟩

theorem mapGet_mapInsert_self (m : List (Path × String)) (k : Path) (v : String) :
    mapGet (mapInsert m k v) k = some v := by
  induction m with
  | nil => simp [mapInsert, mapGet]
  | cons kv rest ih =>
    by_cases hk : kv.1 = k <;> simp [mapInsert, mapGet, hk, ih]

theorem mapGet_mapInsert_ne (m : List (Path × String)) (k q : Path) (v : String)
    (hne : q ≠ k) : mapGet (mapInsert m k v) q = mapGet m q := by
  have hkq : ¬k = q := fun h => hne h.symm
  induction m with
  | nil => simp [mapInsert, mapGet, hkq]
  | cons kv rest ih =>
    by_cases hk : kv.1 = k
    · simp [mapInsert, mapGet, hk, hkq]
    · simp [mapInsert, mapGet, hk, ih]

/-- The rename block never touches the output map. -/
theorem renameBlock_output (cfg : Config) (st : PRState) (r : Result) :
    ((renameBlock cfg st r).1).output = st.output := by
  simp only [renameBlock]
  split
  · rfl
  · split
    · rfl
    · split <;> rfl

/-- The rename block never prints. -/
theorem renameBlock_printed (cfg : Config) (st : PRState) (r : Result) :
    ((renameBlock cfg st r).1).printed = st.printed := by
  simp only [renameBlock]
  split
  · rfl
  · split
    · rfl
    · split <;> rfl

/-- The rename block `continue`s exactly when a rename was requested and
the digest-named target already exists. -/
theorem renameBlock_snd (cfg : Config) (st : PRState) (r : Result) :
    (renameBlock cfg st r).2 =
      (cfg.Rename && (st.fs (renameTarget r.FilePath r.Hash)).isSome) := by
  simp only [renameBlock]
  split
  next h => simp [h]
  next h =>
    have hren : cfg.Rename = true := by
      cases hc : cfg.Rename
      · exact absurd hc h
      · rfl
    split
    next hex => simp [hren, hex]
    next hex =>
      rw [Bool.not_eq_true] at hex
      split <;> simp [hren, hex]

/-- **C7.**  For a successful result with rename requested, the target is
`<digest><original extension>` in the file's original directory.  When the
target already exists, an `AlreadyExists` error is reported and the file
system is completely untouched (original not deleted, target not
overwritten); when the target is free and the source exists, the file is
moved there and every other path is unaffected. -/
theorem renamer_spec (cfg : Config) (st : PRState) (r : Result)
    (hok : r.Error = none) (hren : cfg.Rename = true) :
    renameTarget r.FilePath r.Hash =
        r.FilePath.dropLast ++ [r.Hash ++ goExt (r.FilePath.getLastD "")] ∧
    ((st.fs (renameTarget r.FilePath r.Hash)).isSome = true →
        (processOne cfg st r).fs = st.fs ∧
        (processOne cfg st r).errs = st.errs ++ [(r.FilePath, GoErr.alreadyExists)]) ∧
    ((st.fs (renameTarget r.FilePath r.Hash)).isSome = false →
        ∀ content, st.fs r.FilePath = some content →
          (processOne cfg st r).fs (renameTarget r.FilePath r.Hash) = some content ∧
          (renameTarget r.FilePath r.Hash ≠ r.FilePath →
            (processOne cfg st r).fs r.FilePath = none) ∧
          (∀ q, q ≠ renameTarget r.FilePath r.Hash → q ≠ r.FilePath →
            (processOne cfg st r).fs q = st.fs q) ∧
          (processOne cfg st r).errs = st.errs) := by
  refine ⟨rfl, ?_, ?_⟩
  · intro hex
    simp only [processOne, hok, renameBlock, hren]
    rw [if_neg (by simp)]
    rw [if_pos hex]
    simp
  · intro hfree content hsrc
    simp only [processOne, hok, renameBlock, hren]
    rw [if_neg (by simp)]
    rw [if_neg (by simp [hfree])]
    rw [hsrc]
    simp only []
    have hne1 : ∀ hne : renameTarget r.FilePath r.Hash ≠ r.FilePath,
        ¬r.FilePath = renameTarget r.FilePath r.Hash := fun hne h => hne h.symm
    split
    · refine ⟨by simp, fun hne => ?_, fun q hq1 hq2 => ?_, by simp⟩
      · simp [hne1 hne]
      · simp [hq1, hq2]
    · refine ⟨by simp, fun hne => ?_, fun q hq1 hq2 => ?_, by simp⟩
      · simp [hne1 hne]
      · simp [hq1, hq2]

/-- Witness for C7: renaming `r/f.txt` (digest `"h"`) targets `r/h.txt`;
with `r/h.txt` already present the state keeps the file system intact and
reports `AlreadyExists`. -/
theorem renamer_spec_witness :
    let cfg : Config := ⟨"*", ["r"], "MD5", "", true, true, false, 1⟩
    let fs0 : Path → Option (List Nat) :=
      fun q => if q = ["r", "h.txt"] then some [7] else
        if q = ["r", "f.txt"] then some [1] else none
    let st : PRState := ⟨[], [], fs0, []⟩
    let r : Result := ⟨["r", "f.txt"], "h", none⟩
    (st.fs (renameTarget r.FilePath r.Hash)).isSome = true ∧
      (processOne cfg st r).fs = st.fs ∧
      (processOne cfg st r).errs = st.errs ++ [(r.FilePath, GoErr.alreadyExists)] := by
  intro cfg fs0 st r
  have hex : (st.fs (renameTarget r.FilePath r.Hash)).isSome = true := by
    simp [st, fs0, r, renameTarget, goExt, lastDotSuffix]
  exact ⟨hex, (renamer_spec cfg st r rfl rfl).2.1 hex⟩

/-- A successful result records its digest in the output map under its
original path before the rename block runs, and touches no other key. -/
theorem processOne_output_insert (cfg : Config) (st : PRState) (r : Result)
    (hok : r.Error = none) :
    (processOne cfg st r).output = mapInsert st.output r.FilePath r.Hash ∧
    mapGet (processOne cfg st r).output r.FilePath = some r.Hash ∧
    (∀ q, q ≠ r.FilePath →
      mapGet (processOne cfg st r).output q = mapGet st.output q) := by
  have houtput : (processOne cfg st r).output = mapInsert st.output r.FilePath r.Hash := by
    simp only [processOne, hok]
    rcases hrb : renameBlock cfg
        { st with output := mapInsert st.output r.FilePath r.Hash } r with ⟨st2, flag⟩
    have hout2 : st2.output = mapInsert st.output r.FilePath r.Hash := by
      have h := renameBlock_output cfg
        { st with output := mapInsert st.output r.FilePath r.Hash } r
      rw [hrb] at h
      exact h
    cases flag with
    | true => exact hout2
    | false =>
      simp only []
      split
      · exact hout2
      · exact hout2
  refine ⟨houtput, ?_, ?_⟩
  · rw [houtput]
    exact mapGet_mapInsert_self _ _ _
  · intro q hq
    rw [houtput]
    exact mapGet_mapInsert_ne _ _ _ _ hq

/-- **C9.**  The collector's output map is keyed by the file's original
discovered path in every case: the digest is recorded before the rename
block runs (so even a rename that fails with `AlreadyExists` leaves the
digest recorded), a successful rename does not re-key it, and no key
other than the original path is touched. -/
theorem output_keyed_by_original (cfg : Config) (st : PRState) (r : Result)
    (hok : r.Error = none) :
    (processOne cfg st r).output = mapInsert st.output r.FilePath r.Hash ∧
    mapGet (processOne cfg st r).output r.FilePath = some r.Hash ∧
    (∀ q, q ≠ r.FilePath →
      mapGet (processOne cfg st r).output q = mapGet st.output q) :=
  processOne_output_insert cfg st r hok

/-- Witness for C9: a successful result whose rename hits an existing
target still records its digest under the original path, and nothing is
keyed under the digest-named path. -/
theorem output_keyed_by_original_witness :
    let cfg : Config := ⟨"*", ["r"], "MD5", "", true, true, false, 1⟩
    let fs0 : Path → Option (List Nat) :=
      fun q => if q = ["r", "h.txt"] then some [7] else
        if q = ["r", "f.txt"] then some [1] else none
    let st : PRState := ⟨[], [], fs0, []⟩
    let r : Result := ⟨["r", "f.txt"], "h", none⟩
    mapGet (processOne cfg st r).output ["r", "f.txt"] = some "h" ∧
      mapGet (processOne cfg st r).output ["r", "h.txt"] = none := by
  intro cfg fs0 st r
  have h := output_keyed_by_original cfg st r rfl
  refine ⟨h.2.1, ?_⟩
  rw [h.2.2 ["r", "h.txt"] (by simp [r])]
  rfl

/-- Counterexample to C10 as stated: display enabled and no output file,
yet a successful result whose requested rename finds the digest-named
target occupied prints nothing (the loop `continue`s before the display
step). -/
theorem display_condition_cex :
    let cfg : Config := ⟨"*", ["r"], "MD5", "", true, true, false, 1⟩
    let fs0 : Path → Option (List Nat) :=
      fun q => if q = ["r", "h.txt"] then some [7] else
        if q = ["r", "f.txt"] then some [1] else none
    let st : PRState := ⟨[], [], fs0, []⟩
    let r : Result := ⟨["r", "f.txt"], "h", none⟩
    cfg.Display = true ∧ cfg.OutFile = "" ∧ r.Error = none ∧
      (processOne cfg st r).printed = [] := by
  refine ⟨rfl, rfl, rfl, ?_⟩
  simp [processOne, renameBlock, renameTarget, goExt, lastDotSuffix]

/-- **C10 (amended).**  A `(path, digest)` pair is printed to the console
exactly when display is enabled, no output file was given, the result is
a success, and the result was not skipped by a rename conflict (rename
requested with the digest-named target already existing).  In particular,
whenever an output file is specified nothing is printed. -/
theorem display_condition (cfg : Config) (st : PRState) (r : Result) :
    (processOne cfg st r).printed =
      st.printed ++
        (if cfg.Display = true ∧ cfg.OutFile = "" ∧ r.Error = none ∧
            ¬(cfg.Rename = true ∧
              (st.fs (renameTarget r.FilePath r.Hash)).isSome = true) then
          [(r.FilePath, r.Hash)]
        else []) := by
  match hok : r.Error with
  | some e =>
    rw [if_neg (by simp [hok])]
    simp [processOne, hok]
  | none =>
    simp only [processOne, hok]
    rcases hrb : renameBlock cfg
        { st with output := mapInsert st.output r.FilePath r.Hash } r with ⟨st2, flag⟩
    have hpr2 : st2.printed = st.printed := by
      have h := renameBlock_printed cfg
        { st with output := mapInsert st.output r.FilePath r.Hash } r
      rw [hrb] at h
      exact h
    have hflag : flag =
        (cfg.Rename && (st.fs (renameTarget r.FilePath r.Hash)).isSome) := by
      have h := renameBlock_snd cfg
        { st with output := mapInsert st.output r.FilePath r.Hash } r
      rw [hrb] at h
      exact h
    by_cases hc : cfg.Rename = true ∧
        (st.fs (renameTarget r.FilePath r.Hash)).isSome = true
    · have hft : flag = true := by rw [hflag, hc.1, hc.2]; rfl
      subst hft
      rw [if_neg (by intro h; exact h.2.2.2 hc)]
      simpa using hpr2
    · have hff : flag = false := by
        rw [hflag]
        cases h1 : cfg.Rename with
        | false => simp
        | true =>
          cases h2 : (st.fs (renameTarget r.FilePath r.Hash)).isSome with
          | false => simp
          | true => exact absurd ⟨h1, h2⟩ hc
      subst hff
      simp only []
      by_cases hd : cfg.Display = true ∧ cfg.OutFile = ""
      · rw [if_pos hd, if_pos ⟨hd.1, hd.2, trivial, hc⟩]
        simp [hpr2]
      · rw [if_neg hd, if_neg (fun h => hd ⟨h.1, h.2.1⟩)]
        simp [hpr2]

/-! ## `main` and the error-propagation policy (C6)

`main` exits 0 at `-version`, exits 1 when `getHasher` rejects the
algorithm identifier (before the pipeline is even built), and otherwise
runs the pipeline, writes/prints, reports collected errors on stderr, and
returns from `main` — i.e. exits 0 — whatever the error list contains.
`mainRun` consumes the pipeline's results in the canonical delivery order;
by `run_complete` every completed schedule delivers a permutation
of that list. -/

/-- The external digest primitives the five registry entries wrap. -/
structure HashPrims where
  md5 : List Nat → List Nat
  sha1 : List Nat → List Nat
  sha256 : List Nat → List Nat
  xxsum64 : List Nat → Nat
  blake3 : List Nat → List Nat

/-- `getHasher` (main.go) / `GetHasher` (hasher.go): the switch over the
five identifier constants; anything else is `unsupported hash type`. -/
def getHasher (prims : HashPrims) (hashType : String) :
    Option (List Nat → String) :=
  if hashType = "MD5" then some (newHashStreamFunc prims.md5)
  else if hashType = "SHA1" then some (newHashStreamFunc prims.sha1)
  else if hashType = "SHA256" then some (newHashStreamFunc prims.sha256)
  else if hashType = "XXHASH64" then some (hashXXHashStream prims.xxsum64)
  else if hashType = "BLAKE3" then some (newHashStreamFunc prims.blake3)
  else none

/-- How one invocation of `main` ends. -/
inductive MainOutcome where
  | versionExit
  | configError
  | finished (st : PRState) (exitCode : Nat)

/-- The process exit status of an outcome (`os.Exit(0)`, `os.Exit(1)`, or
the implicit status of returning from `main`). -/
def mainExitCode : MainOutcome → Nat
  | MainOutcome.versionExit => 0
  | MainOutcome.configError => 1
  | MainOutcome.finished _ c => c

/-- The collected error list of a finished outcome. -/
def mainErrs : MainOutcome → List (Path × GoErr)
  | MainOutcome.finished st _ => st.errs
  | _ => []

/-- `main` (main.go). -/
def mainRun (prims : HashPrims) (cfg : Config) (parent : Path) (t : FSTree)
    (fs0 : Path → Option (List Nat)) : MainOutcome :=
  if cfg.Version then MainOutcome.versionExit
  else
    match getHasher prims cfg.HashType with
    | none => MainOutcome.configError
    | some hasher =>
      MainOutcome.finished
        (processResults cfg
          ((walkEvents cfg.FilePattern parent t).map (evResult hasher)) fs0) 0

/-- The rename block only ever appends to the error list. -/
theorem renameBlock_errs (cfg : Config) (st : PRState) (r : Result) :
    ∃ l, ((renameBlock cfg st r).1).errs = st.errs ++ l := by
  simp only [renameBlock]
  split
  · exact ⟨[], by simp⟩
  · split
    · exact ⟨[(r.FilePath, GoErr.alreadyExists)], rfl⟩
    · split
      · exact ⟨[], by simp⟩
      · exact ⟨[(r.FilePath, GoErr.renameFailure)], rfl⟩

/-- One collector step only ever appends to the error list. -/
theorem processOne_errs (cfg : Config) (st : PRState) (r : Result) :
    ∃ l, (processOne cfg st r).errs = st.errs ++ l := by
  match hok : r.Error with
  | some e => exact ⟨[(r.FilePath, e)], by simp [processOne, hok]⟩
  | none =>
    simp only [processOne, hok]
    rcases hrb : renameBlock cfg
        { st with output := mapInsert st.output r.FilePath r.Hash } r with ⟨st2, flag⟩
    obtain ⟨l, hl⟩ := renameBlock_errs cfg
      { st with output := mapInsert st.output r.FilePath r.Hash } r
    rw [hrb] at hl
    cases flag with
    | true => exact ⟨l, hl⟩
    | false =>
      refine ⟨l, ?_⟩
      simp only []
      split <;> simpa using hl

/-- One collector step never deletes an output-map key. -/
theorem processOne_output_mono (cfg : Config) (st : PRState) (r : Result)
    (q : Path) (h : (mapGet st.output q).isSome = true) :
    (mapGet (processOne cfg st r).output q).isSome = true := by
  match hok : r.Error with
  | some e => simpa [processOne, hok] using h
  | none =>
    have hout := (processOne_output_insert cfg st r hok).1
    rw [hout]
    by_cases hq : q = r.FilePath
    · subst hq
      rw [mapGet_mapInsert_self]
      rfl
    · rw [mapGet_mapInsert_ne _ _ _ _ hq]
      exact h

/-- Every error result in the stream ends up in the collected error
list. -/
theorem processResults_errs_mem (cfg : Config) (results : List Result)
    (fs0 : Path → Option (List Nat)) (r : Result) (e : GoErr)
    (hr : r ∈ results) (he : r.Error = some e) :
    (r.FilePath, e) ∈ (processResults cfg results fs0).errs := by
  have step_mem : ∀ (st : PRState) (x : Path × GoErr) (r' : Result),
      x ∈ st.errs → x ∈ (processOne cfg st r').errs := by
    intro st x r' hx
    obtain ⟨l, hl⟩ := processOne_errs cfg st r'
    rw [hl]
    exact List.mem_append_left _ hx
  have main : ∀ (l : List Result) (st : PRState),
      (r ∈ l → (r.FilePath, e) ∈ (l.foldl (processOne cfg) st).errs) ∧
      (∀ x ∈ st.errs, x ∈ (l.foldl (processOne cfg) st).errs) := by
    intro l
    induction l with
    | nil => exact fun st => ⟨by simp, by simp⟩
    | cons a l ih =>
      intro st
      constructor
      · intro hmem
        rcases List.mem_cons.mp hmem with rfl | hmem'
        · simp only [List.foldl_cons]
          exact (ih (processOne cfg st r)).2 _ (by simp [processOne, he])
        · simp only [List.foldl_cons]
          exact (ih (processOne cfg st a)).1 hmem'
      · intro x hx
        simp only [List.foldl_cons]
        exact (ih (processOne cfg st a)).2 x (step_mem st x a hx)
  exact (main results ⟨[], [], fs0, []⟩).1 hr

/-- Every success result in the stream leaves a digest recorded under its
path in the final output map. -/
theorem processResults_success_recorded (cfg : Config) (results : List Result)
    (fs0 : Path → Option (List Nat)) (r : Result)
    (hr : r ∈ results) (he : r.Error = none) :
    (mapGet (processResults cfg results fs0).output r.FilePath).isSome = true := by
  have main : ∀ (l : List Result) (st : PRState),
      (r ∈ l → (mapGet (l.foldl (processOne cfg) st).output r.FilePath).isSome = true) ∧
      (∀ q, (mapGet st.output q).isSome = true →
        (mapGet (l.foldl (processOne cfg) st).output q).isSome = true) := by
    intro l
    induction l with
    | nil => exact fun st => ⟨by simp, fun q h => by simpa using h⟩
    | cons a l ih =>
      intro st
      constructor
      · intro hmem
        rcases List.mem_cons.mp hmem with rfl | hmem'
        · simp only [List.foldl_cons]
          refine (ih (processOne cfg st r)).2 _ ?_
          rw [(processOne_output_insert cfg st r he).2.1]
          rfl
        · simp only [List.foldl_cons]
          exact (ih (processOne cfg st a)).1 hmem'
      · intro q hq
        simp only [List.foldl_cons]
        exact (ih (processOne cfg st a)).2 q (processOne_output_mono cfg st a q hq)
  exact (main results ⟨[], [], fs0, []⟩).1 hr

/-- Counterexample to C6 as stated: a run over a tree whose root entry
raises a traversal error completes with a nonempty error list and exit
status `0` — run-time failures do not make the exit status nonzero. -/
theorem exit_status_cex :
    let prims : HashPrims :=
      ⟨fun _ => [], fun _ => [], fun _ => [], fun _ => 0, fun _ => []⟩
    let cfg : Config := ⟨"*", ["r"], "MD5", "", false, true, false, 1⟩
    mainExitCode (mainRun prims cfg ["r"] (FSTree.errEntry "x") (fun _ => none)) = 0 ∧
      mainErrs (mainRun prims cfg ["r"] (FSTree.errEntry "x") (fun _ => none)) =
        [(["r", "x"], GoErr.walkFailure)] := by
  constructor <;> rfl

/-- **C6 (amended).**  Only an unknown hash-algorithm identifier aborts
the whole run, with exit status 1, before any traversal starts; with a
known algorithm the run always completes with exit status 0 — run-time
failures are isolated: every traversal/open/read error is reported in the
error list, every success is still recorded in the output map, and the
error list never suppresses successes (it is merely printed to stderr,
leaving the exit status 0). -/
theorem error_propagation_policy (prims : HashPrims) (cfg : Config)
    (parent : Path) (t : FSTree) (fs0 : Path → Option (List Nat))
    (hv : cfg.Version = false) :
    (getHasher prims cfg.HashType = none →
        mainRun prims cfg parent t fs0 = MainOutcome.configError ∧
        mainExitCode (mainRun prims cfg parent t fs0) = 1) ∧
    (∀ hasher, getHasher prims cfg.HashType = some hasher →
        mainRun prims cfg parent t fs0 =
          MainOutcome.finished
            (processResults cfg
              ((walkEvents cfg.FilePattern parent t).map (evResult hasher)) fs0) 0 ∧
        mainExitCode (mainRun prims cfg parent t fs0) = 0 ∧
        (∀ r e, r ∈ (walkEvents cfg.FilePattern parent t).map (evResult hasher) →
            r.Error = some e →
            (r.FilePath, e) ∈ (processResults cfg
              ((walkEvents cfg.FilePattern parent t).map (evResult hasher)) fs0).errs) ∧
        (∀ r, r ∈ (walkEvents cfg.FilePattern parent t).map (evResult hasher) →
            r.Error = none →
            (mapGet (processResults cfg
              ((walkEvents cfg.FilePattern parent t).map (evResult hasher)) fs0).output
                r.FilePath).isSome = true)) := by
  constructor
  · intro hnone
    simp [mainRun, hv, hnone, mainExitCode]
  · intro hasher hsome
    refine ⟨by simp [mainRun, hv, hsome], by simp [mainRun, hv, hsome, mainExitCode],
      ?_, ?_⟩
    · intro r e hmem he
      exact processResults_errs_mem cfg _ fs0 r e hmem he
    · intro r hmem he
      exact processResults_success_recorded cfg _ fs0 r hmem he

/-- Witness for amended C6: a tree with one traversal error and one
hashable file; the run exits 0, reports the error, and records the
success. -/
theorem error_propagation_policy_witness :
    let prims : HashPrims :=
      ⟨fun _ => [1], fun _ => [1], fun _ => [1], fun _ => 1, fun _ => [1]⟩
    let cfg : Config := ⟨"*", ["r"], "MD5", "", false, false, false, 1⟩
    let t : FSTree :=
      FSTree.dir "d" false
        [FSTree.errEntry "bad", FSTree.file "a.txt" ⟨[5], false, false, false⟩]
    cfg.Version = false ∧
      mainExitCode (mainRun prims cfg ["r"] t (fun _ => none)) = 0 ∧
      (["r", "d", "bad"], GoErr.walkFailure) ∈
        (processResults cfg
          ((walkEvents cfg.FilePattern ["r"] t).map
            (evResult (newHashStreamFunc prims.md5))) (fun _ => none)).errs := by
  intro prims cfg t
  refine ⟨rfl, ?_, ?_⟩
  · exact ((error_propagation_policy prims cfg ["r"] t (fun _ => none) rfl).2
      (newHashStreamFunc prims.md5) rfl).2.1
  · refine ((error_propagation_policy prims cfg ["r"] t (fun _ => none) rfl).2
      (newHashStreamFunc prims.md5) rfl).2.2.1
      ⟨["r", "d", "bad"], "", some GoErr.walkFailure⟩ GoErr.walkFailure ?_ rfl
    simp [walkEvents, walkTree, walkList, evResult, errResult, matchBool, matchGo,
      scanChunk, stripStars, scanBody]

/-! ## Result field exclusivity (C2)

`pipeline.hashFile` propagates a `Close` error when the hash itself
succeeded (`if err == nil { err = closeErr }` in its deferred close), so a
worker can emit a `Result` whose digest *and* error are both populated. -/

/-- Counterexample to C2 as stated: a file that opens and reads fine but
whose `Close` fails yields a `Result` with a non-empty digest and a
non-nil error. -/
theorem result_exclusivity_cex :
    (workerResult (fun _ => "ab") ⟨["r", "f"], ⟨[], false, false, true⟩⟩).Hash ≠ "" ∧
      (workerResult (fun _ => "ab") ⟨["r", "f"], ⟨[], false, false, true⟩⟩).Error ≠
        none := by
  constructor <;> decide

/-- **C2 (amended).**  For every `Result` a worker emits (with a hasher
that produces nonempty digests, as all five registry adapters do): a
result with no error carries a non-empty digest; a result with an empty
digest carries an error; and both fields are populated exactly in the one
case where the file hashed successfully but its `Close` failed, the error
then being the close error.  The `main.go` variant of `hashFile`, which
discards the close error, satisfies the claim as stated. -/
theorem result_exclusivity (hasher : List Nat → String) (j : Job)
    (hne : ∀ c, hasher c ≠ "") :
    ((workerResult hasher j).Error = none → (workerResult hasher j).Hash ≠ "") ∧
    ((workerResult hasher j).Hash = "" → (workerResult hasher j).Error ≠ none) ∧
    ((workerResult hasher j).Hash ≠ "" ∧ (workerResult hasher j).Error ≠ none ↔
        j.file.openErr = false ∧ j.file.readErr = false ∧ j.file.closeErr = true) ∧
    ((workerResult hasher j).Hash ≠ "" ∧ (workerResult hasher j).Error ≠ none →
        (workerResult hasher j).Error = some GoErr.closeFailure) ∧
    (((hashFileMain hasher j.file).1 ≠ "" → (hashFileMain hasher j.file).2 = none) ∧
      ((hashFileMain hasher j.file).2 ≠ none → (hashFileMain hasher j.file).1 = "")) := by
  have hmain : ∀ p : Prop, ∀ hp : Decidable p, True := fun _ _ => trivial
  cases ho : j.file.openErr with
  | true =>
    simp [workerResult, hashFile, hashFileMain, ho]
  | false =>
    cases hrd : j.file.readErr with
    | true =>
      simp [workerResult, hashFile, hashFileMain, ho, hrd]
    | false =>
      cases hcl : j.file.closeErr with
      | true =>
        simp [workerResult, hashFile, hashFileMain, ho, hrd, hcl, hne j.file.content]
      | false =>
        simp [workerResult, hashFile, hashFileMain, ho, hrd, hcl, hne j.file.content]

/-- Witness for amended C2: a read failure gives an empty digest with an
error, and a clean file gives a digest with no error. -/
theorem result_exclusivity_witness :
    ((workerResult (fun _ => "ab") ⟨["r", "f"], ⟨[], false, true, false⟩⟩).Hash = "" →
      (workerResult (fun _ => "ab") ⟨["r", "f"], ⟨[], false, true, false⟩⟩).Error ≠ none) ∧
    ((workerResult (fun _ => "ab") ⟨["r", "f"], ⟨[], false, true, false⟩⟩).Error = none →
      (workerResult (fun _ => "ab") ⟨["r", "f"], ⟨[], false, true, false⟩⟩).Hash ≠ "") :=
  ⟨(result_exclusivity (fun _ => "ab") ⟨["r", "f"], ⟨[], false, true, false⟩⟩
      (by intro c; show ("ab":String) ≠ ""; decide)).2.1,
   (result_exclusivity (fun _ => "ab") ⟨["r", "f"], ⟨[], false, true, false⟩⟩
      (by intro c; show ("ab":String) ≠ ""; decide)).1⟩

/-! ## XXHASH64 digest formatting (C8) -/

/-- The sixteen lowercase hex digit characters. -/
def hexDigitChars : List Char := "0123456789abcdef".data

theorem hexDigit_mem (m : Nat) (h : m < 16) : hexDigit m ∈ hexDigitChars := by
  interval_cases m <;> decide

theorem hexDigits_length (k : Nat) : ∀ n, n < 16 ^ k → (hexDigits n).length ≤ k := by
  induction k with
  | zero =>
    intro n hn
    have : n = 0 := by omega
    subst this
    simp [hexDigits]
  | succ k ih =>
    intro n hn
    match n with
    | 0 => simp [hexDigits]
    | m + 1 =>
      rw [hexDigits]
      have hdiv : (m + 1) / 16 < 16 ^ k := by
        have h16 : (0:Nat) < 16 := by norm_num
        rw [Nat.div_lt_iff_lt_mul h16]
        calc m + 1 < 16 ^ (k + 1) := hn
          _ = 16 ^ k * 16 := by ring
      have := ih ((m + 1) / 16) hdiv
      simp only [List.length_append, List.length_cons, List.length_nil]
      omega

theorem hexDigits_chars (n : Nat) : ∀ c ∈ hexDigits n, c ∈ hexDigitChars := by
  have main : ∀ k n, n ≤ k → ∀ c ∈ hexDigits n, c ∈ hexDigitChars := by
    intro k
    induction k with
    | zero =>
      intro n hn c hc
      have : n = 0 := by omega
      subst this
      simp [hexDigits] at hc
    | succ k ih =>
      intro n hn c hc
      match n with
      | 0 => simp [hexDigits] at hc
      | m + 1 =>
        rw [hexDigits] at hc
        rcases List.mem_append.mp hc with hc' | hc'
        · have hdiv : (m + 1) / 16 ≤ k := by
            have := Nat.div_le_self (m + 1) 16
            have := Nat.div_lt_self (Nat.succ_pos m) (by omega : (1:Nat) < 16)
            omega
          exact ih _ hdiv c hc'
        · have : c = hexDigit ((m + 1) % 16) := by simpa using hc'
          subst this
          exact hexDigit_mem _ (Nat.mod_lt _ (by omega))
  exact main n n le_rfl

/-- **C8.**  The XXHASH64 adapter formats the finalized 64-bit value with
`%x`: lowercase hex digits only, `"0"` for value zero, and no zero-padding
to a fixed width — any value below `16^15` yields a digest strictly
shorter than the 16 characters a byte-wise fixed-width encoding of a
64-bit value always has. -/
theorem xxhash_format (sum64 : List Nat → Nat) (data : List Nat)
    (hlt : sum64 data < 16 ^ 15) :
    (hashXXHashStream sum64 data).length < 16 ∧
    (∀ c ∈ (hashXXHashStream sum64 data).data, c ∈ hexDigitChars) ∧
    (sum64 data = 0 → hashXXHashStream sum64 data = "0") := by
  refine ⟨?_, ?_, ?_⟩
  · by_cases h0 : sum64 data = 0
    · have hzero : hashXXHashStream sum64 data = "0" := by
        simp [hashXXHashStream, hexNoPad, h0]
      rw [hzero]
      decide
    · have := hexDigits_length 15 (sum64 data) hlt
      simp only [hashXXHashStream, hexNoPad, if_neg h0]
      show (hexDigits (sum64 data)).length < 16
      omega
  · intro c hc
    by_cases h0 : sum64 data = 0
    · simp [hashXXHashStream, hexNoPad, h0] at hc
      subst hc
      decide
    · simp only [hashXXHashStream, hexNoPad, if_neg h0] at hc
      exact hexDigits_chars (sum64 data) c hc
  · intro h0
    simp [hashXXHashStream, hexNoPad, h0]

/-- Witness for C8: a stream whose 64-bit hash value is `10` renders as
the single character `"a"` — length 1, not a fixed 16. -/
theorem xxhash_format_witness :
    (10:Nat) < 16 ^ 15 ∧ (hashXXHashStream (fun _ => 10) []).length < 16 ∧
      hashXXHashStream (fun _ => 10) [] = "a" := by
  refine ⟨by norm_num, (xxhash_format (fun _ => 10) [] (by norm_num)).1, ?_⟩
  rw [hashXXHashStream, hexNoPad]
  norm_num [hexDigits, hexDigit]

/-! ## Worker-count independence (C3)

Both runs' result lists are permutations of the same expected list
(`run_complete`); on a well-formed tree the walk emits distinct
paths, so at most one success exists per path, and the collector's
path→digest map — built by insertion in arrival order — is the same
function in both runs. -/

/-- The path a walk event is about. -/
def evPath : Ev → Path
  | Ev.job j => j.path
  | Ev.errRes p => p

mutual

/-- Well-formed file-system snapshot: the entries of each (readable)
directory have pairwise-distinct names, as on a real file system. -/
def wfTree : FSTree → Bool
  | .file _ _ => true
  | .errEntry _ => true
  | .dir _ _ entries => wfList entries && decide (entries.map FSTree.name).Nodup

/-- `wfTree` for every entry of a listing. -/
def wfList : List FSTree → Bool
  | [] => true
  | t :: ts => wfTree t && wfList ts

end

theorem evResult_path (hasher : List Nat → String) (e : Ev) :
    (evResult hasher e).FilePath = evPath e := by
  cases e <;> rfl

mutual

theorem walkTree_path_ext (pattern : String) (parent : Path) (t : FSTree) :
    ∀ e ∈ walkTree pattern parent t,
      ∃ suffix, evPath e = parent ++ t.name :: suffix := by
  match t with
  | .file n spec =>
    intro e he
    by_cases hm : matchBool pattern n
    · simp only [walkTree, if_pos hm, List.mem_singleton] at he
      subst he
      exact ⟨[], by simp [evPath, FSTree.name]⟩
    · simp [walkTree, hm] at he
  | .errEntry n =>
    intro e he
    simp only [walkTree, List.mem_singleton] at he
    subst he
    exact ⟨[], by simp [evPath, FSTree.name]⟩
  | .dir n readErr entries =>
    intro e he
    cases readErr with
    | true =>
      have he' : e ∈ [Ev.errRes (parent ++ [n])] := he
      rw [List.mem_singleton] at he'
      subst he'
      exact ⟨[], by simp [evPath, FSTree.name]⟩
    | false =>
      have he' : e ∈ walkList pattern (parent ++ [n]) entries := he
      obtain ⟨t', _, suffix, hs⟩ := walkList_path_ext pattern (parent ++ [n]) entries e he'
      exact ⟨t'.name :: suffix, by simp [hs, FSTree.name]⟩

theorem walkList_path_ext (pattern : String) (parent : Path) (ts : List FSTree) :
    ∀ e ∈ walkList pattern parent ts,
      ∃ t ∈ ts, ∃ suffix, evPath e = parent ++ t.name :: suffix := by
  match ts with
  | [] => intro e he; simp [walkList] at he
  | t :: rest =>
    intro e he
    rcases List.mem_append.mp he with h1 | h2
    · obtain ⟨suffix, hs⟩ := walkTree_path_ext pattern parent t e h1
      exact ⟨t, by simp, suffix, hs⟩
    · obtain ⟨t', ht', suffix, hs⟩ := walkList_path_ext pattern parent rest e h2
      exact ⟨t', by simp [ht'], suffix, hs⟩

end

mutual

theorem walkTree_paths_nodup (pattern : String) (parent : Path) (t : FSTree)
    (hwf : wfTree t = true) : ((walkTree pattern parent t).map evPath).Nodup := by
  match t with
  | .file n spec =>
    by_cases hm : matchBool pattern n <;> simp [walkTree, hm]
  | .errEntry n => simp [walkTree]
  | .dir n readErr entries =>
    cases readErr with
    | true => simp [walkTree]
    | false =>
      simp only [wfTree, Bool.and_eq_true, decide_eq_true_eq] at hwf
      exact walkList_paths_nodup pattern (parent ++ [n]) entries hwf.1 hwf.2

theorem walkList_paths_nodup (pattern : String) (parent : Path) (ts : List FSTree)
    (hwf : wfList ts = true) (hnames : (ts.map FSTree.name).Nodup) :
    ((walkList pattern parent ts).map evPath).Nodup := by
  match ts with
  | [] => simp [walkList]
  | t :: rest =>
    simp only [wfList, Bool.and_eq_true] at hwf
    simp only [List.map_cons, List.nodup_cons] at hnames
    have h1 := walkTree_paths_nodup pattern parent t hwf.1
    have h2 := walkList_paths_nodup pattern parent rest hwf.2 hnames.2
    simp only [walkList, List.map_append]
    refine List.Nodup.append h1 h2 ?_
    intro p hp1 hp2
    obtain ⟨e1, he1, rfl⟩ := List.mem_map.mp hp1
    obtain ⟨suffix1, hs1⟩ := walkTree_path_ext pattern parent t e1 he1
    obtain ⟨e2, he2, hpe⟩ := List.mem_map.mp hp2
    obtain ⟨t2, ht2, suffix2, hs2⟩ := walkList_path_ext pattern parent rest e2 he2
    rw [hs1] at hpe
    rw [hs2] at hpe
    have hnm : t2.name = t.name := by
      have := List.append_cancel_left hpe.symm
      exact ((List.cons_eq_cons.mp this).1).symm
    exact hnames.1 (hnm ▸ List.mem_map_of_mem FSTree.name ht2)

end

/-- The paths of the successful results, in arrival order. -/
def successPaths (rs : List Result) : List Path :=
  (rs.filter fun r => r.Error = none).map Result.FilePath

/-- One collector step, seen through the output map only: insert on
success, unchanged on error. -/
theorem processOne_output_eq (cfg : Config) (st : PRState) (r : Result) :
    (processOne cfg st r).output =
      if r.Error = none then mapInsert st.output r.FilePath r.Hash
      else st.output := by
  match hok : r.Error with
  | some e => simp [processOne, hok]
  | none => simpa [hok] using (processOne_output_insert cfg st r hok).1

/-- The final output map at key `q` is the digest of the last success for
`q` in arrival order (or whatever the initial map said). -/
theorem foldl_output_mapGet (cfg : Config) (l : List Result) :
    ∀ (st : PRState) (q : Path),
      mapGet ((l.foldl (processOne cfg) st).output) q =
        (match (l.filter fun r => r.Error = none ∧ r.FilePath = q).getLast? with
         | some r => some r.Hash
         | none => mapGet st.output q) := by
  induction l with
  | nil => intro st q; simp
  | cons a l ih =>
    intro st q
    simp only [List.foldl_cons]
    rw [ih]
    by_cases hsucc : a.Error = none ∧ a.FilePath = q
    · rw [List.filter_cons_of_pos (by simpa using hsucc)]
      have hout : mapGet ((processOne cfg st a).output) q = some a.Hash := by
        rw [processOne_output_eq, if_pos hsucc.1, ← hsucc.2]
        exact mapGet_mapInsert_self _ _ _
      cases hfl : (l.filter fun r => r.Error = none ∧ r.FilePath = q) with
      | nil => simp [hout]
      | cons b tl =>
        rw [List.getLast?_cons_cons]
        have hbt : (b :: tl).getLast? = some ((b :: tl).getLast (by simp)) :=
          List.getLast?_eq_getLast _ _
        rw [hbt]
    · rw [List.filter_cons_of_neg (by simpa using hsucc)]
      have hout : mapGet ((processOne cfg st a).output) q = mapGet st.output q := by
        rw [processOne_output_eq]
        by_cases he : a.Error = none
        · rw [if_pos he]
          exact mapGet_mapInsert_ne _ _ _ _ (fun h => hsucc ⟨he, h.symm⟩)
        · rw [if_neg he]
      rw [hout]

/-- With pairwise-distinct success paths there is at most one success per
key in the stream. -/
theorem filter_length_le_one (l : List Result) (q : Path)
    (hnd : (successPaths l).Nodup) :
    (l.filter fun r => r.Error = none ∧ r.FilePath = q).length ≤ 1 := by
  induction l with
  | nil => simp
  | cons a l ih =>
    by_cases he : a.Error = none
    · have hnd' : ((l.filter fun r => r.Error = none).map Result.FilePath).Nodup ∧
          a.FilePath ∉ (l.filter fun r => r.Error = none).map Result.FilePath := by
        have : successPaths (a :: l) =
            a.FilePath :: (l.filter fun r => r.Error = none).map Result.FilePath := by
          simp [successPaths, List.filter_cons, he]
        rw [this] at hnd
        exact ⟨hnd.of_cons, (List.nodup_cons.mp hnd).1⟩
      by_cases hq : a.FilePath = q
      · rw [List.filter_cons_of_pos (by simp [he, hq])]
        have hnil : (l.filter fun r => r.Error = none ∧ r.FilePath = q) = [] := by
          rw [List.filter_eq_nil_iff]
          intro r hr hcond
          have hcond' : r.Error = none ∧ r.FilePath = q := by simpa using hcond
          refine hnd'.2 ?_
          rw [hq, ← hcond'.2]
          exact List.mem_map_of_mem Result.FilePath
            (List.mem_filter.mpr ⟨hr, by simp [hcond'.1]⟩)
        rw [hnil]
        simp
      · rw [List.filter_cons_of_neg (by simp [hq])]
        exact ih (by
          have : successPaths (a :: l) =
              a.FilePath :: successPaths l := by
            simp [successPaths, List.filter_cons, he]
          rw [this] at hnd
          exact hnd.of_cons)
    · rw [List.filter_cons_of_neg (by simp [he])]
      exact ih (by
        have : successPaths (a :: l) = successPaths l := by
          simp [successPaths, List.filter_cons, he]
        rwa [this] at hnd)

/-- Permutation-invariance of the per-key success: with distinct success
paths the (at most one-element) filtered lists agree between any two
interleavings. -/
theorem filter_eq_of_perm (l1 l2 : List Result) (q : Path)
    (hperm : l1.Perm l2) (hnd : (successPaths l1).Nodup) :
    (l1.filter fun r => r.Error = none ∧ r.FilePath = q) =
      (l2.filter fun r => r.Error = none ∧ r.FilePath = q) := by
  have hp := hperm.filter (fun r => decide (r.Error = none ∧ r.FilePath = q))
  have hlen := filter_length_le_one l1 q hnd
  cases hl : (l1.filter fun r => r.Error = none ∧ r.FilePath = q) with
  | nil =>
    rw [hl] at hp
    exact List.Perm.nil_eq hp
  | cons a tl =>
    rw [hl] at hp hlen
    have htl : tl = [] := by
      simp only [List.length_cons] at hlen
      exact List.eq_nil_of_length_eq_zero (by omega)
    subst htl
    exact (List.perm_singleton.mp hp.symm).symm

/-- The collector's final path→digest map is permutation-invariant when
success paths are distinct. -/
theorem processResults_output_eq_of_perm (cfg : Config) (l1 l2 : List Result)
    (fs01 fs02 : Path → Option (List Nat)) (hperm : l1.Perm l2)
    (hnd : (successPaths l1).Nodup) (q : Path) :
    mapGet (processResults cfg l1 fs01).output q =
      mapGet (processResults cfg l2 fs02).output q := by
  rw [processResults, processResults, foldl_output_mapGet, foldl_output_mapGet,
    filter_eq_of_perm l1 l2 q hperm hnd]

/-- On a well-formed tree the expected result stream has pairwise-distinct
success paths. -/
theorem expected_successPaths_nodup (hasher : List Nat → String) (pattern : String)
    (parent : Path) (t : FSTree) (hwf : wfTree t = true) :
    (successPaths ((walkEvents pattern parent t).map (evResult hasher))).Nodup := by
  have hnd := walkTree_paths_nodup pattern parent t hwf
  have heq : successPaths ((walkEvents pattern parent t).map (evResult hasher)) =
      ((walkEvents pattern parent t).filter
        (fun e => (evResult hasher e).Error = none)).map evPath := by
    rw [successPaths, List.filter_map, List.map_map]
    congr 1
    funext e
    exact evResult_path hasher e
  rw [heq]
  exact hnd.sublist (List.Sublist.map evPath (List.filter_sublist _))

/-- **C3.**  For a fixed algorithm (the hasher is a pure function of the
content) and a fixed well-formed tree, any two completed runs — whatever
their worker counts and schedules — deliver the same multiset of results,
and the collector builds exactly the same final path→digest mapping from
them. -/
theorem worker_count_independence
    (hasher : List Nat → String) (pattern : String) (parent : Path) (t : FSTree)
    (hwf : wfTree t = true) (n1 n2 : Nat) (hn1 : 0 < n1) (hn2 : 0 < n2)
    (acts1 acts2 : List Act) (s1 s2 : PipeState)
    (hr1 : run hasher (initState pattern parent t n1) acts1 = some s1)
    (hc1 : s1.resultsClosed = true)
    (hr2 : run hasher (initState pattern parent t n2) acts2 = some s2)
    (hc2 : s2.resultsClosed = true)
    (cfg : Config) (fs01 fs02 : Path → Option (List Nat)) :
    s1.results.Perm s2.results ∧
    ∀ q : Path, mapGet (processResults cfg s1.results fs01).output q =
      mapGet (processResults cfg s2.results fs02).output q := by
  have hp1 := (run_complete hasher pattern parent t n1 hn1 acts1 s1 hr1 hc1).1
  have hp2 := (run_complete hasher pattern parent t n2 hn2 acts2 s2 hr2 hc2).1
  have hperm : s1.results.Perm s2.results := hp1.trans hp2.symm
  have hndexp := expected_successPaths_nodup hasher pattern parent t hwf
  have hnd1 : (successPaths s1.results).Nodup := by
    have hpp : (successPaths s1.results).Perm
        (successPaths ((walkEvents pattern parent t).map (evResult hasher))) :=
      (hp1.filter _).map _
    exact hpp.nodup_iff.mpr hndexp
  exact ⟨hperm,
    fun q => processResults_output_eq_of_perm cfg _ _ fs01 fs02 hperm hnd1 q⟩

/-- Witness for C3: the one-file tree run once with one worker and once
with two workers (different schedules) delivers permutation-equal result
lists, hence equal mappings. -/
theorem worker_count_independence_witness :
    wfTree (FSTree.file "a.txt" ⟨[], false, false, false⟩) = true ∧
    (PipeState.mk [] true [] [WStatus.done]
        [⟨["r", "a.txt"], "h", none⟩] true).results.Perm
      (PipeState.mk [] true [] [WStatus.done, WStatus.done]
        [⟨["r", "a.txt"], "h", none⟩] true).results := by
  refine ⟨by decide, ?_⟩
  refine (worker_count_independence (fun _ => "h") "*" ["r"]
    (FSTree.file "a.txt" ⟨[], false, false, false⟩) (by decide) 1 2
    (by decide) (by decide)
    [Act.produce, Act.closeJobs, Act.take 0, Act.emit 0, Act.wexit 0, Act.closeResults]
    [Act.produce, Act.closeJobs, Act.take 1, Act.emit 1, Act.wexit 0, Act.wexit 1,
      Act.closeResults]
    _ _ ?_ rfl ?_ rfl ⟨"*", ["r"], "MD5", "", false, true, false, 1⟩
    (fun _ => none) (fun _ => none)).1
  · simp [run, step, initState, walkEvents, walkTree, matchBool, matchGo, scanChunk,
      stripStars, scanBody, allDone, workerResult, hashFile]
  · simp [run, step, initState, walkEvents, walkTree, matchBool, matchGo, scanChunk,
      stripStars, scanBody, allDone, workerResult, hashFile]

end Hashcalcmt
